import Mathlib

/-!
Shallow embedding of the timeline reconciliation in `TimelineSection`
(travel-journal client): merging of "moments" and "footprints" into a
grouped, ordered timeline.

Modelling conventions, matching the JavaScript source:
* `created_at` strings are represented by their parsed value
  `new Date(iso).getTime()` : `some t` (epoch milliseconds, an exact
  integer) for a parseable timestamp, `none` for an unparseable one
  (where `getTime()` yields `NaN`).
* `Array.prototype.sort(cmp)` is modelled by a stable insertion sort
  `jsSort`, with the ECMAScript `SortCompare` rule that a comparator
  result of `NaN` is treated as `0` (elements compare equal, stable
  order kept).  For a consistent comparator every stable sort computes
  the same list, so this agrees with the engine's sort.
* `dayKey` formats the civil date `${yyyy}-${mm}-${dd}` of the local
  calendar — month and day zero-padded to two digits, the year left
  unpadded — and the day keys are later compared as strings.  The
  embedding computes that string exactly: the civil day index is
  `(t + tz).fdiv 86400000` (`tz` the fixed zone offset in milliseconds;
  the source uses the process-local zone), `civilFromDays` converts it
  to the proleptic Gregorian date (the calendar `Date`'s accessors use),
  and `pad2`/`toString` reproduce the formatting, including
  `"NaN-NaN-NaN"` for an unparseable timestamp (`String(NaN)` pieces).
  `keyStrLe` is the comparator's `≤`: lexicographic comparison of the
  key strings by character code (`strLtB`), exactly as the engine
  compares strings — notably NOT chronological across years with
  different digit counts (`"1000-01-02" < "999-12-31"`).
* The `Set` of used footprint ids is modelled by a list of ids with
  membership lookup.
Fields of `Moment`/`Footprint` never read by the reconciliation
(`lat`, `lng`, `accuracy_m`: floating-point, render-only) are omitted;
all fields the algorithm or the rendering reads as data are kept.
-/

namespace Pilgrim

/-- A user-authored journal entry (source type `Moment`);
`created_at` is the parsed timestamp, see the module docstring. -/
structure Moment where
  id : String
  trip_id : String
  user_id : String
  text : String
  photo_path : Option String
  created_at : Option Int
deriving DecidableEq

/-- A geolocation sample (source type `Footprint`); the `lat`/`lng`/
`accuracy_m` floats are render-only and omitted. -/
structure Footprint where
  id : String
  trip_id : String
  type : String
  place_text : Option String
  created_at : Option Int
deriving DecidableEq

/-- The tagged union `TimelineEntry` of the source: `combined` carries the
moment's `created_at`, `moment`/`footprint` carry their own. -/
inductive TimelineEntry where
  | combined (created_at : Option Int) (moment : Moment) (footprint : Footprint)
  | moment (created_at : Option Int) (moment : Moment)
  | footprint (created_at : Option Int) (footprint : Footprint)
deriving DecidableEq

/-- The `created_at` field common to all three variants. -/
def TimelineEntry.created_at : TimelineEntry → Option Int
  | .combined t _ _ => t
  | .moment t _ => t
  | .footprint t _ => t

/-- The moment carried by an entry, if any. -/
def TimelineEntry.momentOf : TimelineEntry → Option Moment
  | .combined _ m _ => some m
  | .moment _ m => some m
  | .footprint _ _ => none

/-- The footprint carried by an entry, if any. -/
def TimelineEntry.footprintOf : TimelineEntry → Option Footprint
  | .combined _ _ f => some f
  | .moment _ _ => none
  | .footprint _ f => some f

/-- `MATCH_WINDOW_MS = 2 * 60 * 1000` from the source. -/
def MATCH_WINDOW_MS : Nat := 2 * 60 * 1000

/-- Stable insertion of `a` into `l`: `a` is placed before the first
element `b` with `le a b = true`.  With `le x y` = "comparator result
`cmp x y ≤ 0`, where `NaN` counts as `0`" this realises a stable
ECMAScript `sort` step (ties and `NaN` comparisons keep input order). -/
def insertLe {α : Type*} (le : α → α → Bool) (a : α) : List α → List α
  | [] => [a]
  | b :: l => if le a b then a :: b :: l else b :: insertLe le a l

/-- Stable sort modelling `Array.prototype.sort(cmp)`, with
`le x y = (SortCompare cmp x y ≤ 0)`. -/
def jsSort {α : Type*} (le : α → α → Bool) (l : List α) : List α :=
  l.foldr (insertLe le) []

/-- `SortCompare` for the comparator `ms(x) - ms(y)` being `≤ 0`:
both parseable compares the integers, any `NaN` operand gives a
comparator result of `NaN`, treated as `0` (so `≤ 0` holds). -/
def tsCmpLe (x y : Option Int) : Bool :=
  match x, y with
  | some a, some b => decide (a ≤ b)
  | _, _ => true

/-- `le` for the newest-first sort `[...footprints].sort((a, b) =>
ms(b.created_at) - ms(a.created_at))`. -/
def fpDescLe (a b : Footprint) : Bool :=
  tsCmpLe b.created_at a.created_at

/-- `le` for the final entry sort `out.sort((a, b) => isEnded ?
ms(a.created_at) - ms(b.created_at) : ms(b.created_at) - ms(a.created_at))`,
also used for the intra-day render sort. -/
def entryLe (isEnded : Bool) (a b : TimelineEntry) : Bool :=
  if isEnded then tsCmpLe a.created_at b.created_at
  else tsCmpLe b.created_at a.created_at

/-- `Math.abs(ms(f.created_at) - t)`: `some` of the absolute delta when
both timestamps parse, `none` when the difference is `NaN`. -/
def candDelta (t : Option Int) (f : Footprint) : Option Nat :=
  match t, f.created_at with
  | some tm, some tf => some (tf - tm).natAbs
  | _, _ => none

/-- The inner candidate loop of the source: scan `fps` in order, skip
used footprints, and keep the current best `(footprint, bestDelta)`;
a candidate replaces it only when `dt <= MATCH_WINDOW_MS && dt < bestDelta`
(`best = none` models `bestDelta = Infinity`; a `NaN` delta fails both
comparisons). -/
def scanBest (used : List String) (t : Option Int) :
    List Footprint → Option (Footprint × Nat) → Option (Footprint × Nat)
  | [], best => best
  | f :: rest, best =>
    if decide (f.id ∈ used) then scanBest used t rest best
    else
      match candDelta t f with
      | none => scanBest used t rest best
      | some dt =>
        if dt ≤ MATCH_WINDOW_MS &&
            (match best with
             | none => true
             | some (_, bd) => decide (dt < bd)) then
          scanBest used t rest (some (f, dt))
        else scanBest used t rest best

/-- The per-moment loop of the source: for each moment in input order,
run the candidate scan over `fpsForMatching`; on a hit, mark the
footprint id used and emit a `combined` entry, otherwise emit a
`moment` entry.  Returns the emitted entries and the final used-id set. -/
def emitMoments (fps : List Footprint) :
    List Moment → List String → List TimelineEntry × List String
  | [], used => ([], used)
  | m :: rest, used =>
    match scanBest used m.created_at fps none with
    | some (f, _) =>
      let r := emitMoments fps rest (f.id :: used)
      (.combined m.created_at m f :: r.1, r.2)
    | none =>
      let r := emitMoments fps rest used
      (.moment m.created_at m :: r.1, r.2)

/-- The `entries` memo of the source: sort a copy of the footprints
newest-first, match the moments against them, append the unused
footprints as `footprint` entries, then apply the `isEnded`-directed
final sort. -/
def entries (moments : List Moment) (footprints : List Footprint)
    (isEnded : Bool) : List TimelineEntry :=
  let fpsForMatching := jsSort fpDescLe footprints
  let mr := emitMoments fpsForMatching moments []
  let residual :=
    (fpsForMatching.filter (fun f => decide (f.id ∉ mr.2))).map
      (fun f => .footprint f.created_at f)
  jsSort (entryLe isEnded) (mr.1 ++ residual)

/-- The unsorted entry list (matched entries then residual footprints);
`entries` is its `isEnded`-directed sort, so this part is independent of
the flag. -/
def baseEntries (M : List Moment) (F : List Footprint) : List TimelineEntry :=
  (emitMoments (jsSort fpDescLe F) M []).1 ++
    ((jsSort fpDescLe F).filter
      (fun f => decide (f.id ∉ (emitMoments (jsSort fpDescLe F) M []).2))).map
      (fun f => .footprint f.created_at f)

/-- `String(v).padStart(2, '0')`: pad to two characters with `'0'`. -/
def pad2 (v : Int) : String :=
  let s := toString v
  if s.length < 2 then "0" ++ s else s

/-- The proleptic Gregorian civil date `(year, month, day)` of a day
index (days since 1970-01-01), as computed by the calendar behind the
`Date` accessors `getFullYear`/`getMonth`/`getDate`. -/
def civilFromDays (z₀ : Int) : Int × Int × Int :=
  let z := z₀ + 719468
  let era := z.fdiv 146097
  let doe := z - era * 146097
  let yoe := (doe - doe.fdiv 1460 + doe.fdiv 36524 - doe.fdiv 146096).fdiv 365
  let y := yoe + era * 400
  let doy := doe - (365 * yoe + yoe.fdiv 4 - yoe.fdiv 100)
  let mp := (5 * doy + 2).fdiv 153
  let d := doy - (153 * mp + 2).fdiv 5 + 1
  let m := mp + (if mp < 10 then 3 else -9)
  (y + (if m ≤ 2 then 1 else 0), m, d)

/-- `dayKey`: the source's day-key string
`${yyyy}-${mm}-${dd}` of a timestamp at fixed zone offset `tz`
(milliseconds) — year unpadded (`String(d.getFullYear())`), month and
day padded to two digits; an unparseable timestamp yields
`"NaN-NaN-NaN"` (each piece is `String(NaN)`). -/
def dayKey (tz : Int) (t : Option Int) : String :=
  match t with
  | none => "NaN-NaN-NaN"
  | some x =>
    let c := civilFromDays ((x + tz).fdiv 86400000)
    toString c.1 ++ "-" ++ pad2 c.2.1 ++ "-" ++ pad2 c.2.2

/-- Lexicographic `<` on strings as character lists, comparing
character codes — the order JS `<`/`>` uses on strings (all day keys
are ASCII, where code points and UTF-16 code units agree). -/
def strLtB : List Char → List Char → Bool
  | [], [] => false
  | [], _ :: _ => true
  | _ :: _, [] => false
  | a :: as, b :: bs =>
    if a.toNat < b.toNat then true
    else if b.toNat < a.toNat then false
    else strLtB as bs

/-- Day-key comparison `a ≤ b`: the sort comparator
`a === b ? 0 : (a > b ? 1 : -1)` yields `≤ 0` exactly when NOT `a > b`,
i.e. not `b < a` in string order. -/
def keyStrLe (a b : String) : Bool := !(strLtB b.data a.data)

/-- `le` for the day-key sort `(a, b) => a === b ? 0 : (isEnded ?
(a > b ? 1 : -1) : (a > b ? -1 : 1))`. -/
def dayKeyLe (isEnded : Bool) (a b : String) : Bool :=
  if isEnded then keyStrLe a b else keyStrLe b a

/-- First-occurrence deduplication, modelling the key order of the
insertion-ordered `Map` built in the `grouped` memo. -/
def dedupAux (seen : List String) :
    List String → List String
  | [] => []
  | k :: rest =>
    if decide (k ∈ seen) then dedupAux seen rest
    else k :: dedupAux (k :: seen) rest

/-- Keys of the `grouped` map, in insertion order. -/
def dedupKeys (l : List String) : List String := dedupAux [] l

/-- The full reconciliation as rendered: `entries`, the `grouped` map
(`filter` keeps the push order of the map's bucket lists), the sorted
`dayKeys`, and the intra-day render sort `[...dayItems].sort(...)`.
Result: the day groups in display order, each with its entries in
display order. -/
def reconcile (tz : Int) (moments : List Moment) (footprints : List Footprint)
    (isEnded : Bool) : List (String × List TimelineEntry) :=
  let es := entries moments footprints isEnded
  let keys := dedupKeys (es.map (fun e => dayKey tz e.created_at))
  let sortedKeys := jsSort (dayKeyLe isEnded) keys
  sortedKeys.map (fun k =>
    (k, jsSort (entryLe isEnded)
          (es.filter (fun e => decide (dayKey tz e.created_at = k)))))

/-- All displayed entries, in display order (day groups flattened). -/
def reconcileFlat (tz : Int) (moments : List Moment)
    (footprints : List Footprint) (isEnded : Bool) : List TimelineEntry :=
  ((reconcile tz moments footprints isEnded).map Prod.snd).flatten

/-- The loop's candidacy test for footprint `f` against moment time `t`:
not yet used, and the absolute delta parses (is not `NaN`) and lies
within the window. -/
def candOk (used : List String) (t : Option Int) (f : Footprint) : Bool :=
  !decide (f.id ∈ used) &&
    (match candDelta t f with
     | some dt => decide (dt ≤ MATCH_WINDOW_MS)
     | none => false)

/-- Does entry `e` reference a footprint with id `fid`? -/
def fpIdRef (fid : String) (e : TimelineEntry) : Bool :=
  match e.footprintOf with
  | some f => decide (f.id = fid)
  | none => false

/-- One step of the candidate loop, as a function of the accumulator. -/
def stepBest (used : List String) (t : Option Int) (f : Footprint)
    (best : Option (Footprint × Nat)) : Option (Footprint × Nat) :=
  if decide (f.id ∈ used) then best
  else
    match candDelta t f with
    | none => best
    | some dt =>
      if dt ≤ MATCH_WINDOW_MS &&
          (match best with
           | none => true
           | some (_, bd) => decide (dt < bd)) then some (f, dt)
      else best

/-! ### A small heap model for the frame property

`Array.prototype.sort` mutates its receiver.  To state that the caller's
`moments`/`footprints` arrays are unchanged, the `entries` computation is
replayed against an explicit heap of array references: `[...footprints]`
allocates a fresh array, each `.sort` call overwrites its receiver's
contents in place, and the caller's arrays are only ever read. -/

/-- Contents a JS array variable of the timeline computation can hold. -/
inductive ArrVal where
  | moms (l : List Moment)
  | fps (l : List Footprint)
  | ents (l : List TimelineEntry)
deriving DecidableEq

/-- A JS heap: array contents addressed by reference ids. -/
abbrev Heap := List (Nat × ArrVal)

/-- Read the array behind reference `r`. -/
def heapGet (h : Heap) (r : Nat) : Option ArrVal :=
  (List.find? (fun p => p.1 == r) h).map Prod.snd

/-- Overwrite, in place, the array behind reference `r`. -/
def heapSet (h : Heap) (r : Nat) (v : ArrVal) : Heap :=
  List.map (fun p => if p.1 = r then (r, v) else p) h

/-- A reference id not yet used by the heap. -/
def heapFresh (h : Heap) : Nat :=
  (List.map Prod.fst h).foldr max 0 + 1

/-- Allocate a fresh array holding `v`. -/
def heapAlloc (h : Heap) (v : ArrVal) : Heap × Nat :=
  (h ++ [(heapFresh h, v)], heapFresh h)

/-- The `entries` computation replayed statement by statement against the
heap.  The caller's arrays live at references `0` (`moments`) and `1`
(`footprints`).  `[...footprints]` allocates a fresh copy, whose `.sort`
mutates only that copy; the matching loops read arrays and push onto a
fresh `out`; the final `out.sort` mutates `out`.  Returns the final heap
and the contents of `out`. -/
def entriesProgram (M : List Moment) (F : List Footprint)
    (isEnded : Bool) : Heap × List TimelineEntry :=
  let h0 : Heap := [(0, .moms M), (1, .fps F)]
  let spread := match heapGet h0 1 with | some (.fps l) => l | _ => []
  let a1 := heapAlloc h0 (.fps spread)
  let h1 := a1.1
  let copyRef := a1.2
  let toSort := match heapGet h1 copyRef with | some (.fps l) => l | _ => []
  let h2 := heapSet h1 copyRef (.fps (jsSort fpDescLe toSort))
  let fpsForMatching :=
    match heapGet h2 copyRef with | some (.fps l) => l | _ => []
  let momsNow := match heapGet h2 0 with | some (.moms l) => l | _ => []
  let mr := emitMoments fpsForMatching momsNow []
  let outContent := mr.1 ++
    (fpsForMatching.filter (fun f => decide (f.id ∉ mr.2))).map
      (fun f => .footprint f.created_at f)
  let a2 := heapAlloc h2 (.ents outContent)
  let h3 := a2.1
  let outRef := a2.2
  let outNow := match heapGet h3 outRef with | some (.ents l) => l | _ => []
  let h4 := heapSet h3 outRef (.ents (jsSort (entryLe isEnded) outNow))
  (h4, match heapGet h4 outRef with | some (.ents l) => l | _ => [])

/-! ### Generic facts about the sort model -/

theorem insertLe_perm {α : Type*} (le : α → α → Bool) (a : α) (l : List α) :
    (insertLe le a l).Perm (a :: l) := by
  induction l with
  | nil => exact List.Perm.refl _
  | cons b t ih =>
    simp only [insertLe]
    split
    · exact List.Perm.refl _
    · exact (ih.cons b).trans (List.Perm.swap a b t)

theorem jsSort_perm {α : Type*} (le : α → α → Bool) (l : List α) :
    (jsSort le l).Perm l := by
  induction l with
  | nil => exact List.Perm.refl _
  | cons a t ih =>
    exact (insertLe_perm le a (jsSort le t)).trans (ih.cons a)

theorem mem_jsSort {α : Type*} {le : α → α → Bool} {l : List α} {x : α} :
    x ∈ jsSort le l ↔ x ∈ l :=
  (jsSort_perm le l).mem_iff

theorem insertLe_pairwise {α : Type*} {le : α → α → Bool} {P : α → Prop}
    (htot : ∀ x y, P x → P y → le x y = true ∨ le y x = true)
    (htrans : ∀ x y z, P x → P y → P z →
      le x y = true → le y z = true → le x z = true)
    {a : α} {l : List α} (ha : P a) (hl : ∀ x ∈ l, P x)
    (hs : l.Pairwise (fun x y => le x y = true)) :
    (insertLe le a l).Pairwise (fun x y => le x y = true) := by
  induction l with
  | nil => simp [insertLe]
  | cons b t ih =>
    have hb : P b := hl b (List.mem_cons_self _ _)
    have ht : ∀ x ∈ t, P x := fun x hx => hl x (List.mem_cons_of_mem _ hx)
    simp only [insertLe]
    split
    · rename_i hab
      refine List.Pairwise.cons ?_ hs
      intro x hx
      rcases List.mem_cons.1 hx with rfl | hx
      · exact hab
      · exact htrans a b x ha hb (ht x hx) hab
          (List.rel_of_pairwise_cons hs hx)
    · rename_i hab
      have hba : le b a = true := by
        rcases htot a b ha hb with h | h
        · exact absurd h hab
        · exact h
      refine List.Pairwise.cons ?_ (ih ht (List.Pairwise.of_cons hs))
      intro x hx
      have hx' := (insertLe_perm le a t).mem_iff.1 hx
      rcases List.mem_cons.1 hx' with rfl | hx'
      · exact hba
      · exact List.rel_of_pairwise_cons hs hx'

theorem jsSort_pairwise {α : Type*} {le : α → α → Bool} {P : α → Prop}
    (htot : ∀ x y, P x → P y → le x y = true ∨ le y x = true)
    (htrans : ∀ x y z, P x → P y → P z →
      le x y = true → le y z = true → le x z = true)
    {l : List α} (hl : ∀ x ∈ l, P x) :
    (jsSort le l).Pairwise (fun x y => le x y = true) := by
  induction l with
  | nil => simp [jsSort]
  | cons a t ih =>
    have ha : P a := hl a (List.mem_cons_self _ _)
    have ht : ∀ x ∈ t, P x := fun x hx => hl x (List.mem_cons_of_mem _ hx)
    exact insertLe_pairwise htot htrans ha
      (fun x hx => ht x (mem_jsSort.1 hx)) (ih ht)

theorem jsSort_flip_eq_reverse {α : Type*} {le : α → α → Bool} {l : List α}
    (htot : ∀ x y, x ∈ l → y ∈ l → le x y = true ∨ le y x = true)
    (htrans : ∀ x y z, x ∈ l → y ∈ l → z ∈ l →
      le x y = true → le y z = true → le x z = true)
    (hanti : ∀ x y, x ∈ l → y ∈ l → le x y = true → le y x = true → x = y) :
    jsSort (fun a b => le b a) l = (jsSort le l).reverse := by
  have hperm : (jsSort (fun a b => le b a) l).Perm ((jsSort le l).reverse) :=
    (jsSort_perm _ l).trans ((jsSort_perm le l).symm.trans
      (jsSort le l).reverse_perm.symm)
  have hs₁ : (jsSort (fun a b => le b a) l).Pairwise
      (fun x y => le y x = true) := by
    refine jsSort_pairwise (P := fun x => x ∈ l) ?_ ?_ (fun x hx => hx)
    · intro x y hx hy
      rcases htot x y hx hy with h | h
      · exact Or.inr h
      · exact Or.inl h
    · intro x y z hx hy hz h₁ h₂
      exact htrans z y x hz hy hx h₂ h₁
  have hs₂ : ((jsSort le l).reverse).Pairwise (fun x y => le y x = true) := by
    rw [List.pairwise_reverse]
    exact jsSort_pairwise (P := fun x => x ∈ l) htot htrans (fun x hx => hx)
  refine List.Perm.eq_of_sorted ?_ hs₁ hs₂ hperm
  intro a b ha hb h₁ h₂
  have ha' : a ∈ l := (jsSort_perm _ l).mem_iff.1 ha
  have hb' : b ∈ l := (jsSort_perm le l).mem_iff.1 (List.mem_reverse.1 hb)
  exact hanti a b ha' hb' h₂ h₁

/-! ### Grouping: flattening the per-key buckets is a permutation -/

theorem flatten_map_filter_perm {α β : Type*} [DecidableEq β]
    (keyf : α → β) :
    ∀ (keys : List β) (es : List α), keys.Nodup →
      (∀ e ∈ es, keyf e ∈ keys) →
      ((keys.map (fun k => es.filter (fun e => decide (keyf e = k)))).flatten).Perm es := by
  intro keys
  induction keys with
  | nil =>
    intro es _ hcov
    cases es with
    | nil => exact List.Perm.refl _
    | cons e t => exact absurd (hcov e (List.mem_cons_self _ _)) (by simp)
  | cons k ks ih =>
    intro es hnd hcov
    have hnd' : ks.Nodup := hnd.of_cons
    have hkks : k ∉ ks := (List.nodup_cons.1 hnd).1
    have hmapeq :
        ks.map (fun k' => es.filter (fun e => decide (keyf e = k'))) =
        ks.map (fun k' =>
          (es.filter (fun e => decide (keyf e ≠ k))).filter
            (fun e => decide (keyf e = k'))) := by
      refine List.map_congr_left ?_
      intro k' hk'
      rw [List.filter_filter]
      refine List.filter_congr ?_
      intro e _
      by_cases h : keyf e = k'
      · have hne : k' ≠ k := fun hh => hkks (hh ▸ hk')
        simp [h, hne]
      · simp [h]
    have hcov' : ∀ e ∈ es.filter (fun e => decide (keyf e ≠ k)), keyf e ∈ ks := by
      intro e he
      have h₁ := List.of_mem_filter he
      have h₂ := List.mem_of_mem_filter he
      have h₃ := hcov e h₂
      rcases List.mem_cons.1 h₃ with h | h
      · exact absurd h (by simpa using h₁)
      · exact h
    have hperm₁ := ih (es.filter (fun e => decide (keyf e ≠ k))) hnd' hcov'
    have hstep : ((k :: ks).map
          (fun k' => es.filter (fun e => decide (keyf e = k')))).flatten
        = es.filter (fun e => decide (keyf e = k)) ++
            (ks.map (fun k' =>
              (es.filter (fun e => decide (keyf e ≠ k))).filter
                (fun e => decide (keyf e = k')))).flatten := by
      simp only [List.map_cons, List.flatten_cons, hmapeq]
    rw [hstep]
    have hfeq : es.filter (fun e => decide (keyf e ≠ k)) =
        es.filter (fun e => !(decide (keyf e = k))) := by
      refine List.filter_congr ?_
      intro e _
      simp [decide_not]
    refine (List.Perm.append_left _ hperm₁).trans ?_
    rw [hfeq]
    exact List.filter_append_perm (fun e => decide (keyf e = k)) es

/-! ### Dedup (insertion-ordered Map keys) -/

theorem mem_dedupAux {k : String} :
    ∀ (l seen : List String), k ∈ l → k ∉ seen →
      k ∈ dedupAux seen l := by
  intro l
  induction l with
  | nil => intro seen h _; exact absurd h (by simp)
  | cons k₀ t ih =>
    intro seen hmem hseen
    simp only [dedupAux]
    split
    · rename_i hk₀
      rcases List.mem_cons.1 hmem with rfl | h
      · exact absurd (of_decide_eq_true hk₀) hseen
      · exact ih seen h hseen
    · rename_i hk₀
      rcases List.mem_cons.1 hmem with rfl | h
      · exact List.mem_cons_self _ _
      · by_cases hkk : k = k₀
        · subst hkk; exact List.mem_cons_self _ _
        · refine List.mem_cons_of_mem _ (ih (k₀ :: seen) h ?_)
          intro hc
          rcases List.mem_cons.1 hc with h' | h'
          · exact hkk h'
          · exact hseen h'

theorem dedupAux_subset {k : String} :
    ∀ (l seen : List String), k ∈ dedupAux seen l → k ∈ l := by
  intro l
  induction l with
  | nil => intro seen h; simp [dedupAux] at h
  | cons k₀ t ih =>
    intro seen h
    simp only [dedupAux] at h
    split at h
    · exact List.mem_cons_of_mem _ (ih seen h)
    · rcases List.mem_cons.1 h with rfl | h'
      · exact List.mem_cons_self _ _
      · exact List.mem_cons_of_mem _ (ih _ h')

theorem dedupAux_not_mem_seen {k : String} :
    ∀ (l seen : List String), k ∈ dedupAux seen l → k ∉ seen := by
  intro l
  induction l with
  | nil => intro seen h; simp [dedupAux] at h
  | cons k₀ t ih =>
    intro seen h
    simp only [dedupAux] at h
    split at h
    · exact ih seen h
    · rename_i hk₀
      rcases List.mem_cons.1 h with rfl | h'
      · exact fun hc => (of_decide_eq_false (Bool.of_not_eq_true hk₀)) hc
      · intro hc
        exact (ih (k₀ :: seen) h') (List.mem_cons_of_mem _ hc)

theorem dedupAux_nodup :
    ∀ (l seen : List String), (dedupAux seen l).Nodup := by
  intro l
  induction l with
  | nil => intro seen; simp [dedupAux]
  | cons k₀ t ih =>
    intro seen
    simp only [dedupAux]
    split
    · exact ih seen
    · refine List.nodup_cons.2 ⟨?_, ih (k₀ :: seen)⟩
      intro hc
      exact (dedupAux_not_mem_seen t (k₀ :: seen) hc) (List.mem_cons_self _ _)

theorem dedupKeys_nodup (l : List String) : (dedupKeys l).Nodup :=
  dedupAux_nodup l []

theorem mem_dedupKeys {k : String} {l : List String} :
    k ∈ dedupKeys l ↔ k ∈ l := by
  constructor
  · exact fun h => dedupAux_subset l [] h
  · exact fun h => mem_dedupAux l [] h (by simp)

/-! ### The candidate scan: characterization of the greedy choice -/

theorem candOk_elim {used : List String} {t : Option Int} {f : Footprint}
    (h : candOk used t f = true) :
    f.id ∉ used ∧ ∃ dt, candDelta t f = some dt ∧ dt ≤ MATCH_WINDOW_MS := by
  simp only [candOk, Bool.and_eq_true, Bool.not_eq_true'] at h
  refine ⟨by simpa using h.1, ?_⟩
  rcases hcd : candDelta t f with _ | dt
  · rw [hcd] at h; exact absurd h.2 (by simp)
  · rw [hcd] at h
    exact ⟨dt, rfl, by simpa using h.2⟩

theorem candOk_intro {used : List String} {t : Option Int} {f : Footprint}
    {dt : Nat} (h₁ : f.id ∉ used) (h₂ : candDelta t f = some dt)
    (h₃ : dt ≤ MATCH_WINDOW_MS) : candOk used t f = true := by
  simp only [candOk, Bool.and_eq_true, Bool.not_eq_true']
  exact ⟨by simpa using h₁, by rw [h₂]; simpa using h₃⟩

/-- When the moment's timestamp is unparseable every delta is `NaN`, so
the scan never finds a candidate and returns its accumulator. -/
theorem scanBest_t_none (used : List String) :
    ∀ (fps : List Footprint) (best : Option (Footprint × Nat)),
      scanBest used none fps best = best := by
  intro fps
  induction fps with
  | nil => intro best; rfl
  | cons f rest ih =>
    intro best
    simp only [scanBest, candDelta]
    split <;> exact ih best

theorem scanBest_cons (used : List String) (t : Option Int) (f : Footprint)
    (rest : List Footprint) (best : Option (Footprint × Nat)) :
    scanBest used t (f :: rest) best =
      scanBest used t rest (stepBest used t f best) := by
  simp only [scanBest, stepBest]
  split
  · rfl
  · split
    · rfl
    · split <;> rfl

theorem stepBest_not_cand {used : List String} {t : Option Int}
    {f : Footprint} (best : Option (Footprint × Nat))
    (h : candOk used t f = false) : stepBest used t f best = best := by
  by_cases hu : f.id ∈ used
  · simp [stepBest, hu]
  · rcases hcd : candDelta t f with _ | dt
    · simp [stepBest, hu, hcd]
    · have hW : ¬ dt ≤ MATCH_WINDOW_MS := by
        simpa [candOk, hcd, hu] using h
      simp [stepBest, hu, hcd, hW]

theorem stepBest_cand_none {used : List String} {t : Option Int}
    {f : Footprint} {dt : Nat} (hnu : f.id ∉ used)
    (hcd : candDelta t f = some dt) (hW : dt ≤ MATCH_WINDOW_MS) :
    stepBest used t f none = some (f, dt) := by
  simp [stepBest, hnu, hcd, hW]

theorem stepBest_cand_beats {used : List String} {t : Option Int}
    {f b : Footprint} {dt bd : Nat} (hnu : f.id ∉ used)
    (hcd : candDelta t f = some dt) (hW : dt ≤ MATCH_WINDOW_MS)
    (hlt : dt < bd) :
    stepBest used t f (some (b, bd)) = some (f, dt) := by
  simp [stepBest, hnu, hcd, hW, hlt]

theorem stepBest_cand_loses {used : List String} {t : Option Int}
    {f b : Footprint} {dt bd : Nat} (hnu : f.id ∉ used)
    (hcd : candDelta t f = some dt)
    (hge : ¬ dt < bd) :
    stepBest used t f (some (b, bd)) = some (b, bd) := by
  simp [stepBest, hnu, hcd, hge]

/-- If the scan returns nothing (starting from `best`), the accumulator
was empty and nothing in the list was a candidate. -/
theorem scanBest_none_char (used : List String) (t : Option Int) :
    ∀ (fps : List Footprint) (best : Option (Footprint × Nat)),
      scanBest used t fps best = none →
      best = none ∧ ∀ g ∈ fps, candOk used t g = false := by
  intro fps
  induction fps with
  | nil => intro best h; exact ⟨h, by simp⟩
  | cons f rest ih =>
    intro best h
    rw [scanBest_cons] at h
    obtain ⟨hb, hrest⟩ := ih _ h
    rcases hok : candOk used t f with _ | _
    · rw [stepBest_not_cand best hok] at hb
      refine ⟨hb, ?_⟩
      intro g hg
      rcases List.mem_cons.1 hg with rfl | hg
      · exact hok
      · exact hrest g hg
    · exfalso
      obtain ⟨hnu, dt, hcd, hW⟩ := candOk_elim hok
      rcases hbb : best with _ | ⟨b, bd⟩
      · rw [hbb, stepBest_cand_none hnu hcd hW] at hb
        cases hb
      · by_cases hlt : dt < bd
        · rw [hbb, stepBest_cand_beats hnu hcd hW hlt] at hb
          cases hb
        · rw [hbb, stepBest_cand_loses hnu hcd hlt] at hb
          cases hb

/-- Full characterization of a successful scan: either the accumulator
survives (and every candidate's delta is at least its), or the result is
a candidate from the list whose delta is minimal among all candidates,
strictly smaller than every candidate's before it in scan order, and
strictly smaller than the incoming accumulator's. -/
theorem scanBest_char (used : List String) (t : Option Int) :
    ∀ (fps : List Footprint) (best : Option (Footprint × Nat))
      (f : Footprint) (d : Nat),
      scanBest used t fps best = some (f, d) →
      (best = some (f, d) ∧
        ∀ g ∈ fps, ∀ dg, candOk used t g = true →
          candDelta t g = some dg → d ≤ dg) ∨
      (∃ l₁ l₂, fps = l₁ ++ f :: l₂ ∧ candOk used t f = true ∧
        candDelta t f = some d ∧
        (∀ g ∈ l₁, ∀ dg, candOk used t g = true →
          candDelta t g = some dg → d < dg) ∧
        (∀ g ∈ fps, ∀ dg, candOk used t g = true →
          candDelta t g = some dg → d ≤ dg) ∧
        (∀ b₀ bd, best = some (b₀, bd) → d < bd)) := by
  intro fps
  induction fps with
  | nil =>
    intro best f d h
    exact Or.inl ⟨h, by simp⟩
  | cons f₀ rest ih =>
    intro best f d h
    rw [scanBest_cons] at h
    rcases hok : candOk used t f₀ with _ | _
    · -- the head is not a candidate: the step keeps the accumulator
      rw [stepBest_not_cand best hok] at h
      rcases ih best f d h with ⟨hb, hall⟩ |
        ⟨l₁, l₂, hsplit, hokf, hcd, hpre, hall, hbd⟩
      · refine Or.inl ⟨hb, ?_⟩
        intro g hg dg hok' hdg
        rcases List.mem_cons.1 hg with rfl | hg
        · rw [hok] at hok'; cases hok'
        · exact hall g hg dg hok' hdg
      · refine Or.inr ⟨f₀ :: l₁, l₂, by rw [hsplit, List.cons_append], hokf, hcd,
          ?_, ?_, hbd⟩
        · intro g hg dg hok' hdg
          rcases List.mem_cons.1 hg with rfl | hg
          · rw [hok] at hok'; cases hok'
          · exact hpre g hg dg hok' hdg
        · intro g hg dg hok' hdg
          rcases List.mem_cons.1 hg with rfl | hg
          · rw [hok] at hok'; cases hok'
          · exact hall g hg dg hok' hdg
    · obtain ⟨hnu, dt, hcd₀, hW⟩ := candOk_elim hok
      have hgoal_head : ∀ dg, candDelta t f₀ = some dg → dg = dt := by
        intro dg hdg
        rw [hcd₀] at hdg
        exact (Option.some.inj hdg).symm
      rcases hbb : best with _ | ⟨b, bd⟩
      · -- empty accumulator: the head becomes the new best
        rw [hbb, stepBest_cand_none hnu hcd₀ hW] at h
        rcases ih _ f d h with ⟨hb, hall⟩ |
          ⟨l₁, l₂, hsplit, hokf, hcd, hpre, hall, hbd⟩
        · obtain ⟨rfl, rfl⟩ : f₀ = f ∧ dt = d := by
            have := Option.some.inj hb
            exact ⟨congrArg Prod.fst this, congrArg Prod.snd this⟩
          refine Or.inr ⟨[], rest, rfl, hok, hcd₀, by simp, ?_, by simp⟩
          intro g hg dg hok' hdg
          rcases List.mem_cons.1 hg with rfl | hg
          · have := hgoal_head dg hdg
            omega
          · exact hall g hg dg hok' hdg
        · have hdlt : d < dt := hbd f₀ dt rfl
          refine Or.inr ⟨f₀ :: l₁, l₂, by rw [hsplit, List.cons_append], hokf, hcd,
            ?_, ?_, by simp⟩
          · intro g hg dg hok' hdg
            rcases List.mem_cons.1 hg with rfl | hg
            · have := hgoal_head dg hdg
              omega
            · exact hpre g hg dg hok' hdg
          · intro g hg dg hok' hdg
            rcases List.mem_cons.1 hg with rfl | hg
            · have := hgoal_head dg hdg
              omega
            · exact hall g hg dg hok' hdg
      · by_cases hlt : dt < bd
        · -- the head beats the accumulator
          rw [hbb, stepBest_cand_beats hnu hcd₀ hW hlt] at h
          rcases ih _ f d h with ⟨hb, hall⟩ |
            ⟨l₁, l₂, hsplit, hokf, hcd, hpre, hall, hbd⟩
          · obtain ⟨rfl, rfl⟩ : f₀ = f ∧ dt = d := by
              have := Option.some.inj hb
              exact ⟨congrArg Prod.fst this, congrArg Prod.snd this⟩
            refine Or.inr ⟨[], rest, rfl, hok, hcd₀, by simp, ?_, ?_⟩
            · intro g hg dg hok' hdg
              rcases List.mem_cons.1 hg with rfl | hg
              · have := hgoal_head dg hdg
                omega
              · exact hall g hg dg hok' hdg
            · intro b₀ bd₀ hbest
              have h2 : bd = bd₀ := congrArg Prod.snd (Option.some.inj hbest)
              omega
          · have hdlt : d < dt := hbd f₀ dt rfl
            refine Or.inr ⟨f₀ :: l₁, l₂, by rw [hsplit, List.cons_append], hokf, hcd,
              ?_, ?_, ?_⟩
            · intro g hg dg hok' hdg
              rcases List.mem_cons.1 hg with rfl | hg
              · have := hgoal_head dg hdg
                omega
              · exact hpre g hg dg hok' hdg
            · intro g hg dg hok' hdg
              rcases List.mem_cons.1 hg with rfl | hg
              · have := hgoal_head dg hdg
                omega
              · exact hall g hg dg hok' hdg
            · intro b₀ bd₀ hbest
              have h2 : bd = bd₀ := congrArg Prod.snd (Option.some.inj hbest)
              omega
        · -- the head is a candidate but does not beat the accumulator
          rw [hbb, stepBest_cand_loses hnu hcd₀ hlt] at h
          rcases ih _ f d h with ⟨hb, hall⟩ |
            ⟨l₁, l₂, hsplit, hokf, hcd, hpre, hall, hbd⟩
          · have hdbd : bd = d := congrArg Prod.snd (Option.some.inj hb)
            refine Or.inl ⟨hbb ▸ hb, ?_⟩
            intro g hg dg hok' hdg
            rcases List.mem_cons.1 hg with rfl | hg
            · have := hgoal_head dg hdg
              omega
            · exact hall g hg dg hok' hdg
          · have hdbd : d < bd := hbd b bd rfl
            refine Or.inr ⟨f₀ :: l₁, l₂, by rw [hsplit, List.cons_append], hokf, hcd,
              ?_, ?_, ?_⟩
            · intro g hg dg hok' hdg
              rcases List.mem_cons.1 hg with rfl | hg
              · have := hgoal_head dg hdg
                omega
              · exact hpre g hg dg hok' hdg
            · intro g hg dg hok' hdg
              rcases List.mem_cons.1 hg with rfl | hg
              · have := hgoal_head dg hdg
                omega
              · exact hall g hg dg hok' hdg
            · intro b₀ bd₀ hbest
              have h2 : bd = bd₀ := congrArg Prod.snd (Option.some.inj hbest)
              omega

/-- A successful scan started with an empty accumulator picks an element
of the list: first (in scan order) among the candidates of minimal
delta. -/
theorem scanBest_init_some {used : List String} {t : Option Int}
    {fps : List Footprint} {f : Footprint} {d : Nat}
    (h : scanBest used t fps none = some (f, d)) :
    ∃ l₁ l₂, fps = l₁ ++ f :: l₂ ∧ candOk used t f = true ∧
      candDelta t f = some d ∧
      (∀ g ∈ l₁, ∀ dg, candOk used t g = true →
        candDelta t g = some dg → d < dg) ∧
      (∀ g ∈ fps, ∀ dg, candOk used t g = true →
        candDelta t g = some dg → d ≤ dg) := by
  rcases scanBest_char used t fps none f d h with ⟨hb, _⟩ | ⟨l₁, l₂, h₁, h₂, h₃, h₄, h₅, _⟩
  · cases hb
  · exact ⟨l₁, l₂, h₁, h₂, h₃, h₄, h₅⟩

/-! ### Invariants of the per-moment matching loop -/

theorem emitMoments_cons_none {fps : List Footprint} {m : Moment}
    {rest : List Moment} {used : List String}
    (h : scanBest used m.created_at fps none = none) :
    emitMoments fps (m :: rest) used =
      (.moment m.created_at m :: (emitMoments fps rest used).1,
        (emitMoments fps rest used).2) := by
  simp only [emitMoments, h]

theorem emitMoments_cons_some {fps : List Footprint} {m : Moment}
    {rest : List Moment} {used : List String} {f : Footprint} {d : Nat}
    (h : scanBest used m.created_at fps none = some (f, d)) :
    emitMoments fps (m :: rest) used =
      (.combined m.created_at m f ::
          (emitMoments fps rest (f.id :: used)).1,
        (emitMoments fps rest (f.id :: used)).2) := by
  simp only [emitMoments, h]

theorem emitMoments_used_mono (fps : List Footprint) :
    ∀ (ms : List Moment) (used : List String),
      used ⊆ (emitMoments fps ms used).2 := by
  intro ms
  induction ms with
  | nil => intro used; exact fun _ h => h
  | cons m rest ih =>
    intro used
    rcases hscan : scanBest used m.created_at fps none with _ | ⟨f, d⟩
    · rw [emitMoments_cons_none hscan]
      exact ih used
    · rw [emitMoments_cons_some hscan]
      exact fun x hx => ih (f.id :: used) (List.mem_cons_of_mem _ hx)

theorem emitMoments_map_momentOf (fps : List Footprint) :
    ∀ (ms : List Moment) (used : List String),
      ((emitMoments fps ms used).1).map TimelineEntry.momentOf =
        ms.map some := by
  intro ms
  induction ms with
  | nil => intro used; rfl
  | cons m rest ih =>
    intro used
    rcases hscan : scanBest used m.created_at fps none with _ | ⟨f, d⟩
    · rw [emitMoments_cons_none hscan]
      simp only [List.map_cons, TimelineEntry.momentOf]
      rw [ih used]
    · rw [emitMoments_cons_some hscan]
      simp only [List.map_cons, TimelineEntry.momentOf]
      rw [ih (f.id :: used)]

/-- Every entry the moment loop emits is a `combined` entry pairing an
input moment with an in-window footprint from the scan list, or a
`moment` entry for an input moment. -/
theorem emitMoments_shape (fps : List Footprint) :
    ∀ (ms : List Moment) (used : List String),
      ∀ e ∈ (emitMoments fps ms used).1,
        (∃ m, m ∈ ms ∧ ∃ f, f ∈ fps ∧
          (∃ d, candDelta m.created_at f = some d ∧ d ≤ MATCH_WINDOW_MS) ∧
          e = .combined m.created_at m f) ∨
        (∃ m, m ∈ ms ∧ e = .moment m.created_at m) := by
  intro ms
  induction ms with
  | nil =>
    intro used e he
    simp only [emitMoments] at he
    exact absurd he (by simp)
  | cons m rest ih =>
    intro used e he
    rcases hscan : scanBest used m.created_at fps none with _ | ⟨f, d⟩
    · rw [emitMoments_cons_none hscan] at he
      rcases List.mem_cons.1 he with rfl | he
      · exact Or.inr ⟨m, List.mem_cons_self _ _, rfl⟩
      · rcases ih used e he with ⟨m', hm', rest'⟩ | ⟨m', hm', he'⟩
        · exact Or.inl ⟨m', List.mem_cons_of_mem _ hm', rest'⟩
        · exact Or.inr ⟨m', List.mem_cons_of_mem _ hm', he'⟩
    · rw [emitMoments_cons_some hscan] at he
      rcases List.mem_cons.1 he with rfl | he
      · obtain ⟨l₁, l₂, hsplit, hok, hcd, _, _⟩ := scanBest_init_some hscan
        obtain ⟨_, dt, hcd', hW⟩ := candOk_elim hok
        refine Or.inl ⟨m, List.mem_cons_self _ _, f, ?_, ⟨dt, hcd', hW⟩, rfl⟩
        rw [hsplit]
        exact List.mem_append.2 (Or.inr (List.mem_cons_self _ _))
      · rcases ih (f.id :: used) e he with ⟨m', hm', rest'⟩ | ⟨m', hm', he'⟩
        · exact Or.inl ⟨m', List.mem_cons_of_mem _ hm', rest'⟩
        · exact Or.inr ⟨m', List.mem_cons_of_mem _ hm', he'⟩

/-- Footprint-id reference count of the matched entries: `fid` is
referenced once if the loop consumed it (it entered the used set), and
never otherwise. -/
theorem emitMoments_countP (fps : List Footprint) (fid : String) :
    ∀ (ms : List Moment) (used : List String),
      ((emitMoments fps ms used).1).countP (fpIdRef fid) =
        if fid ∈ (emitMoments fps ms used).2 ∧ fid ∉ used then 1 else 0 := by
  intro ms
  induction ms with
  | nil =>
    intro used
    simp only [emitMoments, List.countP_nil]
    rw [if_neg]
    intro h
    exact h.2 h.1
  | cons m rest ih =>
    intro used
    rcases hscan : scanBest used m.created_at fps none with _ | ⟨f, d⟩
    · rw [emitMoments_cons_none hscan]
      simp only [List.countP_cons]
      have hhead : fpIdRef fid (.moment m.created_at m) = false := rfl
      rw [hhead]
      simp only [if_neg (by simp : ¬ (false = true)), Nat.add_zero]
      exact ih used
    · rw [emitMoments_cons_some hscan]
      obtain ⟨l₁, l₂, _, hok, _, _, _⟩ := scanBest_init_some hscan
      obtain ⟨hnu, _, _, _⟩ := candOk_elim hok
      have hmono := emitMoments_used_mono fps rest (f.id :: used)
      simp only [List.countP_cons]
      have hhead : fpIdRef fid (.combined m.created_at m f) =
          decide (f.id = fid) := rfl
      rw [hhead, ih (f.id :: used)]
      by_cases hfid : f.id = fid
      · subst hfid
        have hnot : ¬ (f.id ∈ (emitMoments fps rest (f.id :: used)).2 ∧
            f.id ∉ f.id :: used) :=
          fun hc => hc.2 (List.mem_cons_self _ _)
        have h2 : f.id ∈ (emitMoments fps rest (f.id :: used)).2 ∧
            f.id ∉ used :=
          ⟨hmono (List.mem_cons_self _ _), hnu⟩
        rw [if_neg hnot, if_pos h2]
        simp
      · rw [decide_eq_false hfid]
        simp only [if_neg (by simp : ¬ (false = true)), Nat.add_zero]
        by_cases hin : fid ∈ (emitMoments fps rest (f.id :: used)).2 ∧ fid ∉ used
        · rw [if_pos ⟨hin.1, by
            intro hc
            rcases List.mem_cons.1 hc with h | h
            · exact hfid h.symm
            · exact hin.2 h⟩, if_pos hin]
        · rw [if_neg (by
            intro hc
            refine hin ⟨hc.1, ?_⟩
            intro h
            exact hc.2 (List.mem_cons_of_mem _ h)), if_neg hin]

/-! ### Facts about `entries` -/

theorem entries_eq (M : List Moment) (F : List Footprint) (b : Bool) :
    entries M F b =
      jsSort (entryLe b)
        ((emitMoments (jsSort fpDescLe F) M []).1 ++
          ((jsSort fpDescLe F).filter
            (fun f => decide (f.id ∉ (emitMoments (jsSort fpDescLe F) M []).2))).map
            (fun f => .footprint f.created_at f)) := rfl

/-- Every produced entry is a `combined` entry pairing an input moment
with an in-window input footprint, a `moment` entry for an input moment,
or a `footprint` entry for an input footprint. -/
theorem entries_shape (M : List Moment) (F : List Footprint) (b : Bool) :
    ∀ e ∈ entries M F b,
      (∃ m, m ∈ M ∧ ∃ f, f ∈ F ∧
        (∃ d, candDelta m.created_at f = some d ∧ d ≤ MATCH_WINDOW_MS) ∧
        e = .combined m.created_at m f) ∨
      (∃ m, m ∈ M ∧ e = .moment m.created_at m) ∨
      (∃ f, f ∈ F ∧ e = .footprint f.created_at f) := by
  intro e he
  rw [entries_eq] at he
  have he' := mem_jsSort.1 he
  rcases List.mem_append.1 he' with hm | hr
  · rcases emitMoments_shape (jsSort fpDescLe F) M [] e hm with
      ⟨m, hmM, f, hfm, hw, rfl⟩ | ⟨m, hmM, rfl⟩
    · exact Or.inl ⟨m, hmM, f, mem_jsSort.1 hfm, hw, rfl⟩
    · exact Or.inr (Or.inl ⟨m, hmM, rfl⟩)
  · rcases List.mem_map.1 hr with ⟨f, hf, rfl⟩
    exact Or.inr (Or.inr ⟨f, mem_jsSort.1 (List.mem_of_mem_filter hf), rfl⟩)

/-- Any footprint referenced by a produced entry is an input footprint. -/
theorem entries_fp_provenance (M : List Moment) (F : List Footprint)
    (b : Bool) :
    ∀ e ∈ entries M F b, ∀ g, e.footprintOf = some g → g ∈ F := by
  intro e he g hg
  rcases entries_shape M F b e he with
    ⟨m, _, f, hfF, _, rfl⟩ | ⟨m, _, rfl⟩ | ⟨f, hfF, rfl⟩
  · exact (Option.some.inj hg) ▸ hfF
  · cases hg
  · exact (Option.some.inj hg) ▸ hfF

/-- Each moment value occurs in the produced entries exactly as often as
in the input list (as a `combined` or `moment` entry). -/
theorem entries_momCount (M : List Moment) (F : List Footprint) (b : Bool)
    (m : Moment) :
    (entries M F b).countP (fun e => decide (e.momentOf = some m)) =
      M.count m := by
  rw [entries_eq]
  rw [(jsSort_perm _ _).countP_eq]
  rw [List.countP_append]
  have hres : (((jsSort fpDescLe F).filter
      (fun f => decide (f.id ∉ (emitMoments (jsSort fpDescLe F) M []).2))).map
      (fun f => TimelineEntry.footprint f.created_at f)).countP
        (fun e => decide (e.momentOf = some m)) = 0 := by
    rw [List.countP_eq_zero]
    intro e he
    rcases List.mem_map.1 he with ⟨f, _, rfl⟩
    simp [TimelineEntry.momentOf]
  rw [hres, Nat.add_zero]
  have hmap := emitMoments_map_momentOf (jsSort fpDescLe F) M []
  have hstep1 : ((emitMoments (jsSort fpDescLe F) M []).1).countP
      (fun e => decide (e.momentOf = some m)) =
      (((emitMoments (jsSort fpDescLe F) M []).1).map
        TimelineEntry.momentOf).countP (fun om => decide (om = some m)) := by
    rw [List.countP_map]
    rfl
  rw [hstep1, hmap, List.countP_map, List.count]
  refine List.countP_congr ?_
  intro x _
  by_cases h : x = m <;> simp [h, Function.comp]

/-- With pairwise-distinct footprint ids, each input footprint is
referenced by exactly one produced entry. -/
theorem entries_fpCount (M : List Moment) (F : List Footprint) (b : Bool)
    (hids : (F.map Footprint.id).Nodup)
    (f₀ : Footprint) (hf₀ : f₀ ∈ F) :
    (entries M F b).countP (fun e => decide (e.footprintOf = some f₀)) =
      1 := by
  have hperm : (jsSort fpDescLe F).Perm F := jsSort_perm _ _
  have hidsm : ((jsSort fpDescLe F).map Footprint.id).Nodup :=
    ((hperm.map Footprint.id).nodup_iff).2 hids
  have hinj : ∀ x ∈ F, ∀ y ∈ F, x.id = y.id → x = y :=
    fun x hx y hy hxy => List.inj_on_of_nodup_map hids hx hy hxy
  -- pointwise: referencing the value f₀ is the same as referencing its id
  have hpoint : ∀ e ∈ entries M F b,
      (decide (e.footprintOf = some f₀) = true ↔ fpIdRef f₀.id e = true) := by
    intro e he
    rcases hfo : e.footprintOf with _ | g
    · simp [fpIdRef, hfo]
    · have hgF : g ∈ F := entries_fp_provenance M F b e he g hfo
      simp only [fpIdRef, hfo, decide_eq_true_eq, Option.some.injEq]
      constructor
      · intro h; rw [h]
      · intro h; exact hinj g hgF f₀ hf₀ h
  rw [List.countP_congr hpoint]
  rw [entries_eq, (jsSort_perm _ _).countP_eq, List.countP_append]
  have hmatched := emitMoments_countP (jsSort fpDescLe F) f₀.id M []
  have hid_count : ((jsSort fpDescLe F).countP
      (fun f => decide (f.id = f₀.id))) = 1 := by
    have h₁ : ((jsSort fpDescLe F).countP
        (fun f => decide (f.id = f₀.id))) =
        ((jsSort fpDescLe F).map Footprint.id).countP
          (fun s => decide (s = f₀.id)) := by
      rw [List.countP_map]
      rfl
    have h₂ : ((jsSort fpDescLe F).map Footprint.id).countP
        (fun s => decide (s = f₀.id)) =
        ((jsSort fpDescLe F).map Footprint.id).count f₀.id := by
      rw [List.count]
      refine List.countP_congr ?_
      intro s _
      by_cases h : s = f₀.id <;> simp [h]
    have h₃ : ((jsSort fpDescLe F).map Footprint.id).count f₀.id = 1 :=
      List.count_eq_one_of_mem hidsm
        (List.mem_map_of_mem Footprint.id (hperm.mem_iff.2 hf₀))
    rw [h₁, h₂, h₃]
  by_cases hin : f₀.id ∈ (emitMoments (jsSort fpDescLe F) M []).2
  · -- consumed: one combined reference, no residual reference
    rw [hmatched, if_pos ⟨hin, by simp⟩]
    have hres : (((jsSort fpDescLe F).filter
        (fun f => decide (f.id ∉ (emitMoments (jsSort fpDescLe F) M []).2))).map
        (fun f => TimelineEntry.footprint f.created_at f)).countP
          (fpIdRef f₀.id) = 0 := by
      rw [List.countP_eq_zero]
      intro e he
      rcases List.mem_map.1 he with ⟨f, hf, rfl⟩
      have hfid := List.of_mem_filter hf
      simp only [decide_eq_true_eq] at hfid
      simp only [fpIdRef, TimelineEntry.footprintOf, decide_eq_true_eq]
      intro hc
      exact hfid (hc ▸ hin)
    rw [hres]
  · -- not consumed: no combined reference, one residual reference
    rw [hmatched, if_neg (fun hc => hin hc.1), Nat.zero_add]
    rw [List.countP_map]
    have hcomp : (fpIdRef f₀.id) ∘
        (fun f => TimelineEntry.footprint f.created_at f) =
        fun f => decide (f.id = f₀.id) := rfl
    rw [hcomp, List.countP_filter]
    have hc2 : ((jsSort fpDescLe F).countP
        (fun a => decide (a.id = f₀.id) &&
          decide (a.id ∉ (emitMoments (jsSort fpDescLe F) M []).2))) =
        ((jsSort fpDescLe F).countP (fun f => decide (f.id = f₀.id))) := by
      refine List.countP_congr ?_
      intro f _
      simp only [Bool.and_eq_true, decide_eq_true_eq]
      constructor
      · intro h; exact h.1
      · intro h
        exact ⟨h, fun hc => hin (h ▸ hc)⟩
    rw [hc2, hid_count]

/-! ### Flattening the grouped output back to the entry list -/

theorem reconcile_eq (tz : Int) (M : List Moment) (F : List Footprint)
    (b : Bool) :
    reconcile tz M F b =
      (jsSort (dayKeyLe b)
        (dedupKeys ((entries M F b).map (fun e => dayKey tz e.created_at)))).map
        (fun k => (k, jsSort (entryLe b)
          ((entries M F b).filter
            (fun e => decide (dayKey tz e.created_at = k))))) := rfl

theorem flatten_map_pointwise_perm {α β : Type*} :
    ∀ (ks : List β) (f g : β → List α), (∀ k ∈ ks, (f k).Perm (g k)) →
      ((ks.map f).flatten).Perm ((ks.map g).flatten) := by
  intro ks
  induction ks with
  | nil => intro f g _; exact List.Perm.refl _
  | cons k t ih =>
    intro f g h
    simp only [List.map_cons, List.flatten_cons]
    exact (h k (List.mem_cons_self _ _)).append
      (ih f g (fun k' hk' => h k' (List.mem_cons_of_mem _ hk')))

/-- The displayed entries are a permutation of the entry list: grouping
by day and sorting never drops or duplicates an entry. -/
theorem reconcileFlat_perm (tz : Int) (M : List Moment)
    (F : List Footprint) (b : Bool) :
    (reconcileFlat tz M F b).Perm (entries M F b) := by
  unfold reconcileFlat
  rw [reconcile_eq]
  rw [List.map_map]
  have hcomp : Prod.snd ∘ (fun k => ((k, jsSort (entryLe b)
      ((entries M F b).filter
        (fun e => decide (dayKey tz e.created_at = k)))) :
        String × List TimelineEntry)) =
      fun k => jsSort (entryLe b)
        ((entries M F b).filter
          (fun e => decide (dayKey tz e.created_at = k))) := rfl
  rw [hcomp]
  refine (flatten_map_pointwise_perm _ _
    (fun k => (entries M F b).filter
      (fun e => decide (dayKey tz e.created_at = k)))
    (fun k _ => jsSort_perm _ _)).trans ?_
  refine flatten_map_filter_perm
    (fun (e : TimelineEntry) => dayKey tz e.created_at) _ _ ?_ ?_
  · exact ((jsSort_perm _ _).nodup_iff).2 (dedupKeys_nodup _)
  · intro e he
    exact mem_jsSort.2 (mem_dedupKeys.2 (List.mem_map_of_mem _ he))

/-! ### Miscellaneous small facts -/

theorem candDelta_some_elim {t : Option Int} {f : Footprint} {d : Nat}
    (h : candDelta t f = some d) :
    ∃ tm tf, t = some tm ∧ f.created_at = some tf ∧
      d = (tf - tm).natAbs := by
  rcases t with _ | tm
  · simp [candDelta] at h
  · rcases hf : f.created_at with _ | tf
    · simp [candDelta, hf] at h
    · have heq : candDelta (some tm) f = some (tf - tm).natAbs := by
        simp [candDelta, hf]
      rw [heq] at h
      exact ⟨tm, tf, rfl, rfl, (Option.some.inj h).symm⟩


/-- Footprint reference count over the displayed entries (helper shared
by several claim theorems). -/
theorem fpRefCount_flat (tz : Int) (M : List Moment) (F : List Footprint)
    (isEnded : Bool) (hids : (F.map Footprint.id).Nodup) :
    ∀ f ∈ F, (reconcileFlat tz M F isEnded).countP
      (fun e => decide (e.footprintOf = some f)) = 1 := by
  intro f hf
  rw [(reconcileFlat_perm tz M F isEnded).countP_eq]
  exact entries_fpCount M F isEnded hids f hf


theorem uint32_toNat_inj (a b : UInt32) (h : a.toNat = b.toNat) :
    a = b := by
  cases a; cases b
  simp only [UInt32.toNat] at h
  congr 1
  exact BitVec.eq_of_toNat_eq h

theorem char_toNat_inj (a b : Char) (h : a.toNat = b.toNat) : a = b :=
  Char.ext (uint32_toNat_inj _ _ h)

theorem strLtB_asymm :
    ∀ l₁ l₂, strLtB l₁ l₂ = true → strLtB l₂ l₁ = false := by
  intro l₁
  induction l₁ with
  | nil =>
    intro l₂ h
    cases l₂ with
    | nil => cases h
    | cons b bs => rfl
  | cons a as ih =>
    intro l₂ h
    cases l₂ with
    | nil => cases h
    | cons b bs =>
      simp only [strLtB] at h ⊢
      by_cases hxy : a.toNat < b.toNat
      · rw [if_neg (by omega), if_pos hxy]
      · by_cases hyx : b.toNat < a.toNat
        · rw [if_neg hxy, if_pos hyx] at h
          cases h
        · rw [if_neg hyx, if_neg hxy]
          rw [if_neg hxy, if_neg hyx] at h
          exact ih bs h

theorem strLtB_trans :
    ∀ l₁ l₂ l₃, strLtB l₁ l₂ = true → strLtB l₂ l₃ = true →
      strLtB l₁ l₃ = true := by
  intro l₁
  induction l₁ with
  | nil =>
    intro l₂ l₃ h₁ h₂
    cases l₂ with
    | nil => cases h₁
    | cons b bs =>
      cases l₃ with
      | nil => cases h₂
      | cons c cs => rfl
  | cons a as ih =>
    intro l₂ l₃ h₁ h₂
    cases l₂ with
    | nil => cases h₁
    | cons b bs =>
      cases l₃ with
      | nil => cases h₂
      | cons c cs =>
        simp only [strLtB] at h₁ h₂ ⊢
        by_cases hxy : a.toNat < b.toNat
        · by_cases hyz : b.toNat < c.toNat
          · rw [if_pos (by omega)]
          · by_cases hzy : c.toNat < b.toNat
            · rw [if_neg hyz, if_pos hzy] at h₂
              cases h₂
            · rw [if_pos (by omega)]
        · by_cases hyx : b.toNat < a.toNat
          · rw [if_neg hxy, if_pos hyx] at h₁
            cases h₁
          · by_cases hyz : b.toNat < c.toNat
            · rw [if_pos (by omega)]
            · by_cases hzy : c.toNat < b.toNat
              · rw [if_neg hyz, if_pos hzy] at h₂
                cases h₂
              · rw [if_neg (by omega), if_neg (by omega)]
                rw [if_neg hxy, if_neg hyx] at h₁
                rw [if_neg hyz, if_neg hzy] at h₂
                exact ih bs cs h₁ h₂

theorem strLtB_eq_of_not :
    ∀ l₁ l₂, strLtB l₁ l₂ = false → strLtB l₂ l₁ = false → l₁ = l₂ := by
  intro l₁
  induction l₁ with
  | nil =>
    intro l₂ h₁ h₂
    cases l₂ with
    | nil => rfl
    | cons b bs => cases h₁
  | cons a as ih =>
    intro l₂ h₁ h₂
    cases l₂ with
    | nil => cases h₂
    | cons b bs =>
      simp only [strLtB] at h₁ h₂
      by_cases hxy : a.toNat < b.toNat
      · rw [if_pos hxy] at h₁
        cases h₁
      · by_cases hyx : b.toNat < a.toNat
        · rw [if_pos hyx] at h₂
          cases h₂
        · rw [if_neg hxy, if_neg hyx] at h₁
          have hab : a = b := char_toNat_inj a b (by omega)
          rw [hab, ih bs h₁ (by
            rw [if_neg hyx, if_neg hxy] at h₂
            exact h₂)]

theorem string_data_inj (a b : String) (h : a.data = b.data) : a = b := by
  cases a; cases b; simp_all

theorem keyStrLe_total : ∀ a b : String,
    keyStrLe a b = true ∨ keyStrLe b a = true := by
  intro a b
  rcases h : strLtB b.data a.data with _ | _
  · exact Or.inl (by simp [keyStrLe, h])
  · exact Or.inr (by simp [keyStrLe, strLtB_asymm _ _ h])

theorem keyStrLe_trans : ∀ a b c : String,
    keyStrLe a b = true → keyStrLe b c = true → keyStrLe a c = true := by
  intro a b c hab hbc
  simp only [keyStrLe, Bool.not_eq_true'] at hab hbc ⊢
  rcases hca : strLtB c.data a.data with _ | _
  · rfl
  · exfalso
    rcases hab' : strLtB a.data b.data with _ | _
    · have : a.data = b.data := strLtB_eq_of_not _ _ hab' hab
      rw [this] at hca
      rw [hca] at hbc
      cases hbc
    · have : strLtB c.data b.data = true := strLtB_trans _ _ _ hca hab'
      rw [this] at hbc
      cases hbc

theorem keyStrLe_antisymm : ∀ a b : String,
    keyStrLe a b = true → keyStrLe b a = true → a = b := by
  intro a b hab hba
  simp only [keyStrLe, Bool.not_eq_true'] at hab hba
  exact string_data_inj a b (strLtB_eq_of_not _ _ hba hab)

/-- The displayed day keys, in display order. -/
theorem reconcile_keys (tz : Int) (M : List Moment) (F : List Footprint)
    (b : Bool) :
    (reconcile tz M F b).map Prod.fst =
      jsSort (dayKeyLe b)
        (dedupKeys ((entries M F b).map
          (fun e => dayKey tz e.created_at))) := by
  rw [reconcile_eq, List.map_map]
  have hcomp : Prod.fst ∘ (fun k => ((k, jsSort (entryLe b)
      ((entries M F b).filter
        (fun e => decide (dayKey tz e.created_at = k)))) :
        String × List TimelineEntry)) = fun k => k := rfl
  rw [hcomp]
  exact List.map_id _

/-- The displayed day keys are sorted by the string order of day-key
strings: ascending when the trip is ended, descending when active. -/
theorem reconcile_keys_pairwise (tz : Int) (M : List Moment)
    (F : List Footprint) :
    (((reconcile tz M F true).map Prod.fst).Pairwise
      (fun a b => keyStrLe a b = true)) ∧
    (((reconcile tz M F false).map Prod.fst).Pairwise
      (fun a b => keyStrLe b a = true)) := by
  constructor
  · rw [reconcile_keys]
    have h : (jsSort (dayKeyLe true)
        (dedupKeys ((entries M F true).map
          (fun e => dayKey tz e.created_at)))).Pairwise
        (fun a b => dayKeyLe true a b = true) :=
      jsSort_pairwise (P := fun _ : String => True)
        (fun x y _ _ => keyStrLe_total x y)
        (fun x y z _ _ _ hxy hyz => keyStrLe_trans x y z hxy hyz)
        (fun _ _ => trivial)
    exact h
  · rw [reconcile_keys]
    have h : (jsSort (dayKeyLe false)
        (dedupKeys ((entries M F false).map
          (fun e => dayKey tz e.created_at)))).Pairwise
        (fun a b => dayKeyLe false a b = true) :=
      jsSort_pairwise (P := fun _ : String => True)
        (fun x y _ _ => by
          rcases keyStrLe_total y x with h | h
          · exact Or.inl h
          · exact Or.inr h)
        (fun x y z _ _ _ hxy hyz => keyStrLe_trans z y x hyz hxy)
        (fun _ _ => trivial)
    exact h


theorem reconcile_mem_elim {tz : Int} {M : List Moment}
    {F : List Footprint} {b : Bool} {p : String × List TimelineEntry}
    (hp : p ∈ reconcile tz M F b) :
    ∃ k, p = (k, jsSort (entryLe b)
      ((entries M F b).filter
        (fun e => decide (dayKey tz e.created_at = k)))) := by
  rw [reconcile_eq] at hp
  rcases List.mem_map.1 hp with ⟨k, _, rfl⟩
  exact ⟨k, rfl⟩

theorem entries_parseable {M : List Moment} {F : List Footprint} {b : Bool}
    (hm : ∀ m ∈ M, (Moment.created_at m).isSome = true)
    (hf : ∀ f ∈ F, (Footprint.created_at f).isSome = true) :
    ∀ e ∈ entries M F b, (TimelineEntry.created_at e).isSome = true := by
  intro e he
  rcases entries_shape M F b e he with
    ⟨m, hmM, f, _, _, rfl⟩ | ⟨m, hmM, rfl⟩ | ⟨f, hfF, rfl⟩
  · exact hm m hmM
  · exact hm m hmM
  · exact hf f hfF

theorem entryLe_total_on_some {b : Bool} {x y : TimelineEntry}
    (hx : (TimelineEntry.created_at x).isSome = true)
    (hy : (TimelineEntry.created_at y).isSome = true) :
    entryLe b x y = true ∨ entryLe b y x = true := by
  obtain ⟨a, ha⟩ := Option.isSome_iff_exists.1 hx
  obtain ⟨c, hc⟩ := Option.isSome_iff_exists.1 hy
  rcases b <;> simp only [entryLe, tsCmpLe, ha, hc, if_true, if_false,
    Bool.false_eq_true, decide_eq_true_eq] <;> omega

theorem entryLe_trans_on_some {b : Bool} {x y z : TimelineEntry}
    (hx : (TimelineEntry.created_at x).isSome = true)
    (hy : (TimelineEntry.created_at y).isSome = true)
    (hz : (TimelineEntry.created_at z).isSome = true)
    (hxy : entryLe b x y = true) (hyz : entryLe b y z = true) :
    entryLe b x z = true := by
  obtain ⟨a, ha⟩ := Option.isSome_iff_exists.1 hx
  obtain ⟨c, hc⟩ := Option.isSome_iff_exists.1 hy
  obtain ⟨d, hd⟩ := Option.isSome_iff_exists.1 hz
  rcases b <;> simp only [entryLe, tsCmpLe, ha, hc, hd, if_true, if_false,
    Bool.false_eq_true, decide_eq_true_eq] at hxy hyz ⊢ <;> omega

/-- The entries of each displayed day group are sorted by the
`isEnded`-directed comparator whenever all inputs parse. -/
theorem group_items_pairwise {tz : Int} {M : List Moment}
    {F : List Footprint} {b : Bool}
    (hpar : ∀ e ∈ entries M F b, (TimelineEntry.created_at e).isSome = true)
    (k : String) :
    (jsSort (entryLe b)
      ((entries M F b).filter
        (fun e => decide (dayKey tz e.created_at = k)))).Pairwise
      (fun e₁ e₂ => entryLe b e₁ e₂ = true) := by
  refine jsSort_pairwise
    (P := fun e => (TimelineEntry.created_at e).isSome = true)
    (fun x y hx hy => entryLe_total_on_some hx hy)
    (fun x y z hx hy hz hxy hyz => entryLe_trans_on_some hx hy hz hxy hyz)
    ?_
  intro e he
  exact hpar e (List.mem_of_mem_filter he)


theorem entries_eq_base (M : List Moment) (F : List Footprint) (b : Bool) :
    entries M F b = jsSort (entryLe b) (baseEntries M F) := rfl

theorem entryLe_false_eq (a b : TimelineEntry) :
    entryLe false a b = entryLe true b a := rfl

theorem dayKeyLe_true_eq (a b : String) :
    dayKeyLe true a b = keyStrLe a b := rfl

theorem dayKeyLe_false_eq (a b : String) :
    dayKeyLe false a b = keyStrLe b a := rfl

theorem emitMoments_map_created (fps : List Footprint) :
    ∀ (ms : List Moment) (used : List String),
      ((emitMoments fps ms used).1).map TimelineEntry.created_at =
        ms.map Moment.created_at := by
  intro ms
  induction ms with
  | nil => intro used; rfl
  | cons m rest ih =>
    intro used
    rcases hscan : scanBest used m.created_at fps none with _ | ⟨f, d⟩
    · rw [emitMoments_cons_none hscan]
      simp only [List.map_cons, TimelineEntry.created_at]
      rw [ih used]
    · rw [emitMoments_cons_some hscan]
      simp only [List.map_cons, TimelineEntry.created_at]
      rw [ih (f.id :: used)]

/-- With pairwise-distinct input timestamps the unsorted entry list has
pairwise-distinct timestamps. -/
theorem baseEntries_ts_nodup (M : List Moment) (F : List Footprint)
    (hdist : ((M.map Moment.created_at) ++
      F.map Footprint.created_at).Nodup) :
    ((baseEntries M F).map TimelineEntry.created_at).Nodup := by
  rw [baseEntries, List.map_append]
  rw [emitMoments_map_created]
  rw [List.map_map]
  have hcomp : TimelineEntry.created_at ∘
      (fun f => TimelineEntry.footprint f.created_at f) =
      Footprint.created_at := rfl
  rw [hcomp]
  rw [List.nodup_append] at hdist ⊢
  obtain ⟨h₁, h₂, h₃⟩ := hdist
  have hsub : (((jsSort fpDescLe F).filter
      (fun f => decide
        (f.id ∉ (emitMoments (jsSort fpDescLe F) M []).2))).map
      Footprint.created_at).Sublist
        ((jsSort fpDescLe F).map Footprint.created_at) :=
    List.Sublist.map Footprint.created_at (List.filter_sublist _)
  have hFnodup : ((jsSort fpDescLe F).map Footprint.created_at).Nodup :=
    (((jsSort_perm fpDescLe F).map Footprint.created_at).nodup_iff).2 h₂
  refine ⟨h₁, hsub.nodup hFnodup, ?_⟩
  intro a ha hb
  have hb' : a ∈ ((jsSort fpDescLe F)).map Footprint.created_at :=
    hsub.mem hb
  have hb'' : a ∈ F.map Footprint.created_at :=
    ((jsSort_perm fpDescLe F).map Footprint.created_at).mem_iff.1 hb'
  exact h₃ ha hb''

/-- With pairwise-distinct input timestamps, entries are determined by
their timestamp. -/
theorem baseEntries_ts_inj (M : List Moment) (F : List Footprint)
    (hdist : ((M.map Moment.created_at) ++
      F.map Footprint.created_at).Nodup) :
    ∀ a ∈ baseEntries M F, ∀ b ∈ baseEntries M F,
      TimelineEntry.created_at a = TimelineEntry.created_at b → a = b :=
  fun a ha b hb hab =>
    List.inj_on_of_nodup_map (baseEntries_ts_nodup M F hdist) ha hb hab

/-! ### Claim theorems -/

/-- C1: partition of footprints.  For every input whose footprint ids are
pairwise distinct, every input footprint is referenced by exactly one
displayed timeline entry — inside exactly one `combined` entry or as
exactly one `footprint` ("footprintOnly") entry — never zero times and
never more than once. -/
theorem C1_footprint_partition (tz : Int) (moments : List Moment)
    (footprints : List Footprint) (isEnded : Bool)
    (hids : (footprints.map Footprint.id).Nodup) :
    ∀ f ∈ footprints,
      (reconcileFlat tz moments footprints isEnded).countP
        (fun e => decide (e.footprintOf = some f)) = 1 := by
  intro f hf
  rw [(reconcileFlat_perm tz moments footprints isEnded).countP_eq]
  exact entries_fpCount moments footprints isEnded hids f hf

/-- Witness for C1 at a concrete input (one matched footprint, one
unmatched footprint, distinct ids). -/
theorem C1_footprint_partition_witness :
    (reconcileFlat 0 [⟨"m1", "t", "u", "hi", none, some 0⟩]
      [⟨"f1", "t", "breadcrumb", none, some 60000⟩,
        ⟨"f2", "t", "breadcrumb", none, some 999999999⟩] true).countP
      (fun e => decide (e.footprintOf =
        some ⟨"f1", "t", "breadcrumb", none, some 60000⟩)) = 1 :=
  C1_footprint_partition 0
    [⟨"m1", "t", "u", "hi", none, some 0⟩]
    [⟨"f1", "t", "breadcrumb", none, some 60000⟩,
      ⟨"f2", "t", "breadcrumb", none, some 999999999⟩] true
    (by decide) _ (by decide)

/-- C2: proximity window.  Every `combined` entry the reconciler displays
pairs a moment and a footprint whose parsed timestamps both exist and
differ by at most 120000 ms in absolute value. -/
theorem C2_proximity_window (tz : Int) (moments : List Moment)
    (footprints : List Footprint) (isEnded : Bool) :
    ∀ e ∈ reconcileFlat tz moments footprints isEnded,
      ∀ t m f, e = .combined t m f →
        ∃ tm tf, m.created_at = some tm ∧ f.created_at = some tf ∧
          (tf - tm).natAbs ≤ 120000 := by
  intro e he t m f hef
  have he' : e ∈ entries moments footprints isEnded :=
    (reconcileFlat_perm tz moments footprints isEnded).mem_iff.1 he
  rcases entries_shape moments footprints isEnded e he' with
    ⟨m', _, f', _, ⟨d, hcd, hW⟩, hshape⟩ | ⟨m', _, hshape⟩ | ⟨f', _, hshape⟩
  · rw [hef] at hshape
    have hmm : m = m' ∧ f = f' := by
      have h1 := congrArg TimelineEntry.momentOf hshape
      have h2 := congrArg TimelineEntry.footprintOf hshape
      simp only [TimelineEntry.momentOf, TimelineEntry.footprintOf,
        Option.some.injEq] at h1 h2
      exact ⟨h1, h2⟩
    obtain ⟨rfl, rfl⟩ := hmm
    obtain ⟨tm, tf, htm, htf, hd⟩ := candDelta_some_elim hcd
    refine ⟨tm, tf, htm, htf, ?_⟩
    have hW' : MATCH_WINDOW_MS = 120000 := rfl
    rw [← hd, ← hW']
    exact hW
  · rw [hef] at hshape; cases hshape
  · rw [hef] at hshape; cases hshape

/-- Witness for C2 at a concrete input producing a combined entry. -/
theorem C2_proximity_window_witness :
    ∃ tm tf,
      (⟨"m1", "t", "u", "hi", none, some 0⟩ : Moment).created_at = some tm ∧
      (⟨"f1", "t", "breadcrumb", none, some 60000⟩ : Footprint).created_at =
        some tf ∧ (tf - tm).natAbs ≤ 120000 :=
  C2_proximity_window 0 [⟨"m1", "t", "u", "hi", none, some 0⟩]
    [⟨"f1", "t", "breadcrumb", none, some 60000⟩] true
    (.combined (some 0) ⟨"m1", "t", "u", "hi", none, some 0⟩
      ⟨"f1", "t", "breadcrumb", none, some 60000⟩)
    (by decide) (some 0) ⟨"m1", "t", "u", "hi", none, some 0⟩
    ⟨"f1", "t", "breadcrumb", none, some 60000⟩ rfl

/-- C3: coverage of moments.  Formalized per occurrence: every moment
value appears in the displayed entries (as the moment of a `combined`
entry or of a `moment` entry) exactly as often as it occurs in the
input; in particular, for a duplicate-free input, every input moment
appears in exactly one displayed entry. -/
theorem C3_moment_coverage (tz : Int) (moments : List Moment)
    (footprints : List Footprint) (isEnded : Bool) :
    (∀ m : Moment,
      (reconcileFlat tz moments footprints isEnded).countP
        (fun e => decide (e.momentOf = some m)) = moments.count m) ∧
    (moments.Nodup → ∀ m ∈ moments,
      (reconcileFlat tz moments footprints isEnded).countP
        (fun e => decide (e.momentOf = some m)) = 1) := by
  have hbase : ∀ m : Moment,
      (reconcileFlat tz moments footprints isEnded).countP
        (fun e => decide (e.momentOf = some m)) = moments.count m := by
    intro m
    rw [(reconcileFlat_perm tz moments footprints isEnded).countP_eq]
    exact entries_momCount moments footprints isEnded m
  refine ⟨hbase, ?_⟩
  intro hnd m hm
  rw [hbase m]
  exact List.count_eq_one_of_mem hnd hm

/-- Witness for C3 at a concrete duplicate-free input. -/
theorem C3_moment_coverage_witness :
    (reconcileFlat 0 [⟨"m1", "t", "u", "hi", none, some 0⟩] [] false).countP
      (fun e => decide (e.momentOf =
        some ⟨"m1", "t", "u", "hi", none, some 0⟩)) = 1 :=
  (C3_moment_coverage 0 [⟨"m1", "t", "u", "hi", none, some 0⟩] [] false).2
    (by decide) _ (by decide)

/-- C8: determinism / referential transparency.  The reconciliation is a
pure function of its inputs: two invocations on identical moments,
identical footprints and the same flag return identical grouped, ordered
output. -/
theorem C8_deterministic (tz : Int) (m₁ m₂ : List Moment)
    (f₁ f₂ : List Footprint) (e₁ e₂ : Bool)
    (hm : m₁ = m₂) (hf : f₁ = f₂) (he : e₁ = e₂) :
    reconcile tz m₁ f₁ e₁ = reconcile tz m₂ f₂ e₂ := by
  rw [hm, hf, he]

/-- Witness for C8 at a concrete input. -/
theorem C8_deterministic_witness :
    reconcile 0 [⟨"m1", "t", "u", "hi", none, some 0⟩]
      [⟨"f1", "t", "breadcrumb", none, some 60000⟩] true =
    reconcile 0 [⟨"m1", "t", "u", "hi", none, some 0⟩]
      [⟨"f1", "t", "breadcrumb", none, some 60000⟩] true :=
  C8_deterministic 0 _ _ _ _ _ _ rfl rfl rfl

/-- C10 (amended): an unparseable timestamp never participates in a
match.  Unconditionally, an entry holding a moment with unparseable
`created_at` is a `moment` ("momentOnly") entry and an entry holding a
footprint with unparseable `created_at` is a `footprint`
("footprintOnly") entry — never `combined`, since a `NaN` delta fails
the window comparison.  Provided footprint ids are pairwise distinct, an
unparseable footprint is also always emitted (exactly one `footprint`
entry); an unparseable moment is always emitted (one `moment` entry per
input occurrence). -/
theorem C10_unparseable_never_matches (tz : Int) (M : List Moment)
    (F : List Footprint) (isEnded : Bool) :
    (∀ e ∈ reconcileFlat tz M F isEnded, ∀ m, e.momentOf = some m →
      m.created_at = none → e = .moment m.created_at m) ∧
    (∀ e ∈ reconcileFlat tz M F isEnded, ∀ f, e.footprintOf = some f →
      f.created_at = none → e = .footprint f.created_at f) ∧
    ((F.map Footprint.id).Nodup → ∀ f ∈ F, f.created_at = none →
      (reconcileFlat tz M F isEnded).countP
        (fun e => decide (e = .footprint f.created_at f)) = 1) ∧
    (∀ m ∈ M, m.created_at = none →
      (reconcileFlat tz M F isEnded).countP
        (fun e => decide (e = .moment m.created_at m)) = M.count m) := by
  have hmom : ∀ e ∈ reconcileFlat tz M F isEnded, ∀ m, e.momentOf = some m →
      m.created_at = none → e = .moment m.created_at m := by
    intro e he m hmo hnone
    have he' : e ∈ entries M F isEnded :=
      (reconcileFlat_perm tz M F isEnded).mem_iff.1 he
    rcases entries_shape M F isEnded e he' with
      ⟨m', _, f', _, ⟨d, hcd, _⟩, rfl⟩ | ⟨m', _, rfl⟩ | ⟨f', _, rfl⟩
    · have : m' = m := Option.some.inj hmo
      subst this
      obtain ⟨tm, _, htm, _, _⟩ := candDelta_some_elim hcd
      rw [hnone] at htm
      cases htm
    · have : m' = m := Option.some.inj hmo
      subst this
      rfl
    · cases hmo
  have hfp : ∀ e ∈ reconcileFlat tz M F isEnded, ∀ f, e.footprintOf = some f →
      f.created_at = none → e = .footprint f.created_at f := by
    intro e he f hfo hnone
    have he' : e ∈ entries M F isEnded :=
      (reconcileFlat_perm tz M F isEnded).mem_iff.1 he
    rcases entries_shape M F isEnded e he' with
      ⟨m', _, f', _, ⟨d, hcd, _⟩, rfl⟩ | ⟨m', _, rfl⟩ | ⟨f', _, rfl⟩
    · have : f' = f := Option.some.inj hfo
      subst this
      obtain ⟨_, tf, _, htf, _⟩ := candDelta_some_elim hcd
      rw [hnone] at htf
      cases htf
    · cases hfo
    · have : f' = f := Option.some.inj hfo
      subst this
      rfl
  refine ⟨hmom, hfp, ?_, ?_⟩
  · intro hids f hf hnone
    have hcount := fpRefCount_flat tz M F isEnded hids f hf
    rw [← hcount]
    refine List.countP_congr ?_
    intro e he
    simp only [decide_eq_true_eq]
    constructor
    · intro h
      rw [h]
      rfl
    · intro h
      exact hfp e he f h hnone
  · intro m hm hnone
    have hcount : (reconcileFlat tz M F isEnded).countP
        (fun e => decide (e.momentOf = some m)) = M.count m := by
      rw [(reconcileFlat_perm tz M F isEnded).countP_eq]
      exact entries_momCount M F isEnded m
    rw [← hcount]
    refine List.countP_congr ?_
    intro e he
    simp only [decide_eq_true_eq]
    constructor
    · intro h
      rw [h]
      rfl
    · intro h
      exact hmom e he m h hnone

/-- Witness for C10 at a concrete input: an unparseable footprint with a
unique id is emitted exactly once. -/
theorem C10_unparseable_never_matches_witness :
    (reconcileFlat 0 [⟨"m1", "t", "u", "hi", none, some 0⟩]
      [⟨"f1", "t", "breadcrumb", none, none⟩] true).countP
      (fun e => decide (e = .footprint
        (⟨"f1", "t", "breadcrumb", none, none⟩ : Footprint).created_at
        ⟨"f1", "t", "breadcrumb", none, none⟩)) = 1 :=
  (C10_unparseable_never_matches 0 [⟨"m1", "t", "u", "hi", none, some 0⟩]
    [⟨"f1", "t", "breadcrumb", none, none⟩] true).2.2.1
    (by decide) _ (by decide) rfl

/-- C10 counterexample to the claim as stated: without the
distinct-ids hypothesis, an unparseable footprint can disappear from
the output entirely.  Here a parseable footprint shares the id `"x"`;
the moment consumes it, the shared id enters the used set, and the
residual loop then also skips the unparseable footprint, so no entry
references it — contradicting "is always emitted as a footprintOnly
entry". -/
theorem C10_counterexample :
    ¬ ∃ e ∈ reconcileFlat 0 [⟨"m1", "t", "u", "hi", none, some 0⟩]
      [⟨"x1", "t", "breadcrumb", none, some 0⟩,
        ⟨"x1", "t", "breadcrumb", none, none⟩] true,
      e.footprintOf = some ⟨"x1", "t", "breadcrumb", none, none⟩ := by
  decide

/-- C6 counterexample to the claim as stated: in an ended (ascending)
timeline, an entry with an unparseable timestamp is NOT treated as
having the lowest possible sort key — a "lowest" key would place it
first, but the entry comparator treats the `NaN` delta as a tie (the
entry keeps its insertion position, here after the parseable moment)
and its `"NaN-NaN-NaN"` day key sorts after every numeric day key. -/
theorem C6_counterexample :
    ¬ ((reconcileFlat 0
        [⟨"m1", "t", "u", "hi", none, some 0⟩,
          ⟨"m2", "t", "u", "hi", none, none⟩] [] true).head? =
      some (.moment none ⟨"m2", "t", "u", "hi", none, none⟩)) := by
  decide

/-- C6 (amended): malformed-timestamp fallback.  The reconciler is a
total function (it cannot throw), and an entry with an unparseable
timestamp is still emitted: every moment occurrence yields an entry
and, with pairwise-distinct footprint ids, every footprint yields
exactly one entry.  However, instead of a minimal sort key: the entry
comparator treats an unparseable timestamp as equal to every timestamp
(`NaN` comparator results count as `0`, so the stable sort keeps the
entry's insertion position), and the unparseable day key
`"NaN-NaN-NaN"` sorts after all `yyyy-mm-dd` day keys (`'N' > '9'`) in
the ascending (ended) day order. -/
theorem C6_malformed_fallback (tz : Int) (M : List Moment)
    (F : List Footprint) (isEnded : Bool) :
    (∀ m ∈ M, m.created_at = none →
      (reconcileFlat tz M F isEnded).countP
        (fun e => decide (e.momentOf = some m)) = M.count m) ∧
    ((F.map Footprint.id).Nodup → ∀ f ∈ F, f.created_at = none →
      (reconcileFlat tz M F isEnded).countP
        (fun e => decide (e.footprintOf = some f)) = 1) ∧
    (∀ x : Option Int, tsCmpLe none x = true ∧ tsCmpLe x none = true) ∧
    (((reconcile tz M F true).map Prod.fst).Pairwise
      (fun a b => keyStrLe a b = true)) := by
  refine ⟨?_, ?_, ?_, (reconcile_keys_pairwise tz M F).1⟩
  · intro m _ _
    rw [(reconcileFlat_perm tz M F isEnded).countP_eq]
    exact entries_momCount M F isEnded m
  · intro hids f hf _
    exact fpRefCount_flat tz M F isEnded hids f hf
  · intro x
    rcases x with _ | v <;> exact ⟨rfl, rfl⟩

/-- Witness for C6 at a concrete input with an unparseable moment. -/
theorem C6_malformed_fallback_witness :
    (reconcileFlat 0 [⟨"m2", "t", "u", "hi", none, none⟩] [] true).countP
      (fun e => decide (e.momentOf =
        some ⟨"m2", "t", "u", "hi", none, none⟩)) =
      [(⟨"m2", "t", "u", "hi", none, none⟩ : Moment)].count
        ⟨"m2", "t", "u", "hi", none, none⟩ :=
  (C6_malformed_fallback 0 [⟨"m2", "t", "u", "hi", none, none⟩] [] true).1
    _ (by decide) rfl

/-- C4 counterexample to the claim as stated: day groups are ordered by
string comparison of the unpadded `yyyy-mm-dd` day keys, which is not
chronological across years with different digit counts.  With two
parseable moments on 0999-12-31 and 1000-01-02 and the trip ended, the
code sorts the keys `"1000-01-02" < "999-12-31"` (`'1' < '9'`) and
displays the year-1000 day group FIRST — the newer day before the older
one.  Chronological ascending day groups would require every entry of
an earlier group to be strictly older than every entry of a later
group; the `Pairwise` below states exactly that and fails. -/
theorem C4_counterexample :
    ¬ ((reconcile 0
        [⟨"m1", "t", "u", "a", none, some (-30610310400000)⟩,
          ⟨"m2", "t", "u", "b", none, some (-30610137600000)⟩] [] true).map
        (fun p => p.2.map TimelineEntry.created_at)).Pairwise
      (fun l₁ l₂ => ∀ a ∈ l₁, ∀ b ∈ l₂, tsCmpLe b a = false) := by
  decide

/-- C4 (amended): sort direction.  For inputs whose timestamps all
parse: the entries within each day group appear oldest first when the
trip is ended and newest first when it is active; the day groups appear
in strictly ascending (ended) resp. strictly descending (active)
lexicographic order of their `yyyy-mm-dd` day-key strings.  Because the
year is left unpadded, this string order agrees with chronological
order only when all displayed years have equally many digits (e.g. the
four-digit years 1000–9999); see the counterexample for the deviation
at years 999/1000. -/
theorem C4_sort_direction (tz : Int) (M : List Moment) (F : List Footprint)
    (hm : ∀ m ∈ M, (Moment.created_at m).isSome = true)
    (hf : ∀ f ∈ F, (Footprint.created_at f).isSome = true) :
    (((reconcile tz M F true).map Prod.fst).Pairwise
        (fun a b => keyStrLe a b = true ∧ a ≠ b) ∧
      ∀ p ∈ reconcile tz M F true,
        (p.2.map TimelineEntry.created_at).Pairwise
          (fun a b => ∃ x y, a = some x ∧ b = some y ∧ x ≤ y)) ∧
    (((reconcile tz M F false).map Prod.fst).Pairwise
        (fun a b => keyStrLe b a = true ∧ a ≠ b) ∧
      ∀ p ∈ reconcile tz M F false,
        (p.2.map TimelineEntry.created_at).Pairwise
          (fun a b => ∃ x y, a = some x ∧ b = some y ∧ y ≤ x)) := by
  have hkeyNd : ∀ b : Bool, ((reconcile tz M F b).map Prod.fst).Nodup := by
    intro b
    rw [reconcile_keys]
    exact ((jsSort_perm _ _).nodup_iff).2 (dedupKeys_nodup _)
  have hitems : ∀ (b : Bool), ∀ p ∈ reconcile tz M F b,
      p.2.Pairwise (fun e₁ e₂ => entryLe b e₁ e₂ = true) ∧
      ∀ e ∈ p.2, (TimelineEntry.created_at e).isSome = true := by
    intro b p hp
    obtain ⟨k, rfl⟩ := reconcile_mem_elim hp
    refine ⟨group_items_pairwise (entries_parseable hm hf) k, ?_⟩
    intro e he
    exact entries_parseable hm hf e
      (List.mem_of_mem_filter (mem_jsSort.1 he))
  refine ⟨⟨?_, ?_⟩, ?_, ?_⟩
  · exact ((reconcile_keys_pairwise tz M F).1).and (hkeyNd true)
  · intro p hp
    obtain ⟨hsorted, hsome⟩ := hitems true p hp
    refine List.pairwise_map.2 ?_
    refine List.Pairwise.imp_of_mem ?_ hsorted
    intro e₁ e₂ h₁ h₂ hle
    obtain ⟨x, hx⟩ := Option.isSome_iff_exists.1 (hsome e₁ h₁)
    obtain ⟨y, hy⟩ := Option.isSome_iff_exists.1 (hsome e₂ h₂)
    refine ⟨x, y, hx, hy, ?_⟩
    simpa [entryLe, tsCmpLe, hx, hy] using hle
  · exact ((reconcile_keys_pairwise tz M F).2).and (hkeyNd false)
  · intro p hp
    obtain ⟨hsorted, hsome⟩ := hitems false p hp
    refine List.pairwise_map.2 ?_
    refine List.Pairwise.imp_of_mem ?_ hsorted
    intro e₁ e₂ h₁ h₂ hle
    obtain ⟨x, hx⟩ := Option.isSome_iff_exists.1 (hsome e₁ h₁)
    obtain ⟨y, hy⟩ := Option.isSome_iff_exists.1 (hsome e₂ h₂)
    refine ⟨x, y, hx, hy, ?_⟩
    simpa [entryLe, tsCmpLe, hx, hy] using hle

/-- Witness for C4 at a concrete two-day input (four-digit years, where
the string key order is also chronological). -/
theorem C4_sort_direction_witness :
    ((reconcile 0 [⟨"m1", "t", "u", "hi", none, some 0⟩,
        ⟨"m2", "t", "u", "ho", none, some 86400000⟩] [] true).map
      Prod.fst).Pairwise
        (fun a b => keyStrLe a b = true ∧ a ≠ b) :=
  ((C4_sort_direction 0
    [⟨"m1", "t", "u", "hi", none, some 0⟩,
      ⟨"m2", "t", "u", "ho", none, some 86400000⟩] []
    (by decide) (by decide)).1).1

/-- C5 counterexample to the claim as stated: with two entries sharing a
timestamp, flipping `isEnded` does not reverse the intra-day entry
sequence — the directed comparators both return `0` on the tie, so the
stable sort keeps the insertion order in both directions. -/
theorem C5_counterexample :
    ¬ (reconcile 0 [⟨"m1", "t", "u", "hi", none, some 0⟩,
        ⟨"m2", "t", "u", "ho", none, some 0⟩] [] true =
      ((reconcile 0 [⟨"m1", "t", "u", "hi", none, some 0⟩,
        ⟨"m2", "t", "u", "ho", none, some 0⟩] [] false).map
          (fun p => (p.1, p.2.reverse))).reverse) := by
  decide

/-- C5 (amended): direction reversal.  For a fixed input, flipping
`isEnded` always exactly reverses the day-group key sequence, and the
membership of every day group is unchanged (each group's entry list is a
permutation of its counterpart).  When moreover all input timestamps
parse and are pairwise distinct, the whole grouped output mirrors
exactly: the day-group sequence and each group's entry sequence reverse. -/
theorem C5_direction_reversal (tz : Int) (M : List Moment)
    (F : List Footprint) :
    ((reconcile tz M F true).map Prod.fst =
      ((reconcile tz M F false).map Prod.fst).reverse) ∧
    (∀ p ∈ reconcile tz M F true, ∃ q ∈ reconcile tz M F false,
      q.1 = p.1 ∧ q.2.Perm p.2) ∧
    ((∀ m ∈ M, (Moment.created_at m).isSome = true) →
      (∀ f ∈ F, (Footprint.created_at f).isSome = true) →
      ((M.map Moment.created_at ++ F.map Footprint.created_at).Nodup) →
      reconcile tz M F true =
        ((reconcile tz M F false).map
          (fun p => (p.1, p.2.reverse))).reverse) := by
  have hET : (entries M F true).Perm (baseEntries M F) := by
    rw [entries_eq_base]
    exact jsSort_perm _ _
  have hEF : (entries M F false).Perm (baseEntries M F) := by
    rw [entries_eq_base]
    exact jsSort_perm _ _
  have hKperm :
      (dedupKeys ((entries M F true).map
        (fun e => dayKey tz e.created_at))).Perm
      (dedupKeys ((entries M F false).map
        (fun e => dayKey tz e.created_at))) := by
    refine (List.perm_ext_iff_of_nodup (dedupKeys_nodup _)
      (dedupKeys_nodup _)).2 ?_
    intro k
    rw [mem_dedupKeys, mem_dedupKeys]
    constructor
    · intro hk
      rcases List.mem_map.1 hk with ⟨e, he, rfl⟩
      exact List.mem_map_of_mem _ (hEF.mem_iff.2 (hET.mem_iff.1 he))
    · intro hk
      rcases List.mem_map.1 hk with ⟨e, he, rfl⟩
      exact List.mem_map_of_mem _ (hET.mem_iff.2 (hEF.mem_iff.1 he))
  have hSKrev : jsSort (dayKeyLe true)
      (dedupKeys ((entries M F true).map
        (fun e => dayKey tz e.created_at))) =
      (jsSort (dayKeyLe false)
        (dedupKeys ((entries M F false).map
          (fun e => dayKey tz e.created_at)))).reverse := by
    have h₁ := (reconcile_keys_pairwise tz M F).1
    rw [reconcile_keys] at h₁
    have h₂ := (reconcile_keys_pairwise tz M F).2
    rw [reconcile_keys] at h₂
    refine List.Perm.eq_of_sorted
      (fun a b _ _ hab hba => keyStrLe_antisymm a b hab hba) h₁
      (List.pairwise_reverse.2 h₂) ?_
    refine ((jsSort_perm (dayKeyLe true) _).trans (hKperm.trans
      (jsSort_perm (dayKeyLe false) _).symm)).trans ?_
    exact (List.reverse_perm _).symm
  refine ⟨?_, ?_, ?_⟩
  · rw [reconcile_keys, reconcile_keys, hSKrev]
  · intro p hp
    rw [reconcile_eq] at hp
    rcases List.mem_map.1 hp with ⟨k, hk, rfl⟩
    have hk' : k ∈ jsSort (dayKeyLe false)
        (dedupKeys ((entries M F false).map
          (fun e => dayKey tz e.created_at))) :=
      mem_jsSort.2 (hKperm.mem_iff.1 (mem_jsSort.1 hk))
    refine ⟨(k, jsSort (entryLe false)
      ((entries M F false).filter
        (fun e => decide (dayKey tz e.created_at = k)))), ?_, rfl, ?_⟩
    · rw [reconcile_eq]
      exact List.mem_map_of_mem _ hk'
    · refine ((jsSort_perm _ _).trans ?_).trans (jsSort_perm _ _).symm
      exact (hEF.trans hET.symm).filter _
  · intro hm hf hdist
    have hinj := baseEntries_ts_inj M F hdist
    rw [reconcile_eq tz M F true, reconcile_eq tz M F false]
    rw [List.map_map, ← List.map_reverse]
    rw [← hSKrev]
    refine List.map_congr_left ?_
    intro k hk
    have hitem : jsSort (entryLe true)
        ((entries M F true).filter
          (fun e => decide (dayKey tz e.created_at = k))) =
        (jsSort (entryLe false)
          ((entries M F false).filter
            (fun e => decide (dayKey tz e.created_at = k)))).reverse := by
      have hmemT : ∀ e ∈ jsSort (entryLe true)
          ((entries M F true).filter
            (fun e => decide (dayKey tz e.created_at = k))),
          e ∈ baseEntries M F := by
        intro e he
        exact hET.mem_iff.1 (List.mem_of_mem_filter (mem_jsSort.1 he))
      have hmemF : ∀ e ∈ (jsSort (entryLe false)
          ((entries M F false).filter
            (fun e => decide (dayKey tz e.created_at = k)))).reverse,
          e ∈ baseEntries M F := by
        intro e he
        exact hEF.mem_iff.1 (List.mem_of_mem_filter
          (mem_jsSort.1 (List.mem_reverse.1 he)))
      have hPf : (jsSort (entryLe false)
          ((entries M F false).filter
            (fun e => decide (dayKey tz e.created_at = k)))).Pairwise
          (fun e₁ e₂ => entryLe false e₁ e₂ = true) :=
        group_items_pairwise (entries_parseable hm hf) k
      have hPf' : (jsSort (entryLe false)
          ((entries M F false).filter
            (fun e => decide (dayKey tz e.created_at = k)))).Pairwise
          (fun a b => entryLe true b a = true) :=
        hPf.imp (fun h => h)
      refine List.Perm.eq_of_sorted ?_
        (group_items_pairwise (entries_parseable hm hf) k)
        (List.pairwise_reverse.2 hPf') ?_
      · intro a b ha hb hab hba
        have haB := hmemT a ha
        have hbB := hmemF b hb
        have hpa : (TimelineEntry.created_at a).isSome = true :=
          entries_parseable hm hf a (hET.mem_iff.2 haB)
        have hpb : (TimelineEntry.created_at b).isSome = true :=
          entries_parseable hm hf b (hET.mem_iff.2 hbB)
        obtain ⟨x, hx⟩ := Option.isSome_iff_exists.1 hpa
        obtain ⟨y, hy⟩ := Option.isSome_iff_exists.1 hpb
        have hab' : x ≤ y := by
          simpa [entryLe, tsCmpLe, hx, hy] using hab
        have hba' : y ≤ x := by
          simpa [entryLe, tsCmpLe, hx, hy] using hba
        refine hinj a haB b hbB ?_
        rw [hx, hy, le_antisymm hab' hba']
      · refine ((jsSort_perm (entryLe true) _).trans ?_).trans
          ((jsSort_perm (entryLe false) _).symm.trans
            (List.reverse_perm _).symm)
        exact (hET.trans hEF.symm).filter _
    rw [hitem]
    rfl

/-- Witness for C5 at a concrete two-day input with distinct parseable
timestamps. -/
theorem C5_direction_reversal_witness :
    reconcile 0 [⟨"m1", "t", "u", "hi", none, some 0⟩,
        ⟨"m2", "t", "u", "ho", none, some 86400000⟩] [] true =
      ((reconcile 0 [⟨"m1", "t", "u", "hi", none, some 0⟩,
        ⟨"m2", "t", "u", "ho", none, some 86400000⟩] [] false).map
          (fun p => (p.1, p.2.reverse))).reverse :=
  (C5_direction_reversal 0 _ _).2.2 (by decide) (by decide) (by decide)

/-- C7: greedy matching with the documented tie-break.  Conjuncts:
(1) moments are processed in input order — the matched entry list
carries exactly the input moments, in order;
(2) a successful candidate scan returns an unused in-window footprint of
minimal absolute delta, and every candidate strictly earlier in the scan
has a strictly larger delta — so on an equal delta the candidate
encountered first in the scan wins;
(3) the scan list is a permutation of the footprints ordered
newest-to-oldest (descending timestamps when all parse);
(4) the spec's Scenario 3: moments at 0 ms and 30000 ms and one
footprint at 15000 ms give exactly one combined and one momentOnly
entry, never two combined. -/
theorem C7_greedy_tie_break :
    (∀ (fps : List Footprint) (ms : List Moment) (used : List String),
      ((emitMoments fps ms used).1).map TimelineEntry.momentOf =
        ms.map some) ∧
    (∀ (used : List String) (t : Option Int) (fps : List Footprint)
        (f : Footprint) (d : Nat),
      scanBest used t fps none = some (f, d) →
      ∃ l₁ l₂, fps = l₁ ++ f :: l₂ ∧ candOk used t f = true ∧
        candDelta t f = some d ∧
        (∀ g ∈ l₁, ∀ dg, candOk used t g = true →
          candDelta t g = some dg → d < dg) ∧
        (∀ g ∈ fps, ∀ dg, candOk used t g = true →
          candDelta t g = some dg → d ≤ dg)) ∧
    (∀ F : List Footprint, (jsSort fpDescLe F).Perm F ∧
      ((∀ f ∈ F, (Footprint.created_at f).isSome = true) →
        (jsSort fpDescLe F).Pairwise
          (fun a b => ∃ x y, Footprint.created_at a = some x ∧
            Footprint.created_at b = some y ∧ y ≤ x))) ∧
    (reconcileFlat 0
      [⟨"m1", "t", "u", "a", none, some 0⟩,
        ⟨"m2", "t", "u", "b", none, some 30000⟩]
      [⟨"f1", "t", "breadcrumb", none, some 15000⟩] true =
      [.combined (some 0) ⟨"m1", "t", "u", "a", none, some 0⟩
          ⟨"f1", "t", "breadcrumb", none, some 15000⟩,
        .moment (some 30000) ⟨"m2", "t", "u", "b", none, some 30000⟩]) := by
  refine ⟨emitMoments_map_momentOf, ?_, ?_, by decide⟩
  · intro used t fps f d h
    exact scanBest_init_some h
  · intro F
    refine ⟨jsSort_perm _ _, ?_⟩
    intro hpar
    have hP : (jsSort fpDescLe F).Pairwise
        (fun a b => fpDescLe a b = true) := by
      refine jsSort_pairwise
        (P := fun g => (Footprint.created_at g).isSome = true) ?_ ?_ ?_
      · intro x y hx hy
        obtain ⟨a, ha⟩ := Option.isSome_iff_exists.1 hx
        obtain ⟨c, hc⟩ := Option.isSome_iff_exists.1 hy
        simp only [fpDescLe, tsCmpLe, ha, hc, decide_eq_true_eq]
        omega
      · intro x y z hx hy hz hxy hyz
        obtain ⟨a, ha⟩ := Option.isSome_iff_exists.1 hx
        obtain ⟨c, hc⟩ := Option.isSome_iff_exists.1 hy
        obtain ⟨e, he⟩ := Option.isSome_iff_exists.1 hz
        simp only [fpDescLe, tsCmpLe, ha, hc, he,
          decide_eq_true_eq] at hxy hyz ⊢
        omega
      · intro x hx
        exact hpar x hx
    refine List.Pairwise.imp_of_mem ?_ hP
    intro a b ha hb hab
    obtain ⟨x, hx⟩ := Option.isSome_iff_exists.1
      (hpar a (mem_jsSort.1 ha))
    obtain ⟨y, hy⟩ := Option.isSome_iff_exists.1
      (hpar b (mem_jsSort.1 hb))
    refine ⟨x, y, hx, hy, ?_⟩
    simp only [fpDescLe, tsCmpLe, hx, hy, decide_eq_true_eq] at hab
    exact hab

/-- Witness for C7: a tie — two unused footprints at equal absolute
delta 15000 from the moment time — resolves to the one encountered
first in the scan. -/
theorem C7_greedy_tie_break_witness :
    ∃ l₁ l₂,
      [(⟨"g1", "t", "breadcrumb", none, some 15000⟩ : Footprint),
        ⟨"g2", "t", "breadcrumb", none, some (-15000)⟩] =
        l₁ ++ (⟨"g1", "t", "breadcrumb", none, some 15000⟩ : Footprint) :: l₂ ∧
      candOk [] (some 0) ⟨"g1", "t", "breadcrumb", none, some 15000⟩ = true ∧
      candDelta (some 0) ⟨"g1", "t", "breadcrumb", none, some 15000⟩ =
        some 15000 ∧
      (∀ g ∈ l₁, ∀ dg, candOk [] (some 0) g = true →
        candDelta (some 0) g = some dg → 15000 < dg) ∧
      (∀ g ∈ [(⟨"g1", "t", "breadcrumb", none, some 15000⟩ : Footprint),
          ⟨"g2", "t", "breadcrumb", none, some (-15000)⟩], ∀ dg,
        candOk [] (some 0) g = true →
        candDelta (some 0) g = some dg → 15000 ≤ dg) :=
  C7_greedy_tie_break.2.1 [] (some 0)
    [⟨"g1", "t", "breadcrumb", none, some 15000⟩,
      ⟨"g2", "t", "breadcrumb", none, some (-15000)⟩]
    ⟨"g1", "t", "breadcrumb", none, some 15000⟩ 15000 (by decide)

/-- C9: no side effects on inputs.  In the heap replay of the `entries`
computation — where `.sort` mutates its receiver array in place — the
caller's `moments` and `footprints` arrays are unchanged after the call
(the spread copy `[...footprints]` receives the newest-first sort, and
the final sort hits the local `out`), and the produced entry list is
exactly the pure function `entries` of the inputs. -/
theorem C9_no_input_mutation (M : List Moment) (F : List Footprint)
    (isEnded : Bool) :
    heapGet (entriesProgram M F isEnded).1 0 = some (.moms M) ∧
    heapGet (entriesProgram M F isEnded).1 1 = some (.fps F) ∧
    (entriesProgram M F isEnded).2 = entries M F isEnded :=
  ⟨rfl, rfl, rfl⟩

end Pilgrim
